import Mathlib

/-!
Verification of the core of the Ratools bulletin-board designer: the image
resampling engine (`js/imageProcessor.js`) and the tiling algorithm
(`GridSplitter.splitIntoTiles` in `gridSplitter.js`), embedded shallowly.

Modelling conventions:
* JS numbers are modelled as exact rationals (`ℚ`); integer quantities
  (canvas dimensions, loop indices, channel bytes) as `ℕ` / `ℤ`.
* A canvas / `ImageData` is a `Raster`: width, height and a flat row-major
  RGBA byte list of length `width*height*4`.
* `Math.round x` is `⌊x + 1/2⌋` (JS rounds halves toward +∞),
  `Math.floor` / `Math.ceil` are `⌊·⌋` / `⌈·⌉`.
* Writing a number `q` into a `Uint8ClampedArray` stores
  `min (max ⌊q+1/2⌋ 0) 255`; the IEEE special cases produced by a zero
  divisor in the source (`0/0 = NaN` stores 0, `±∞` store 255 / 0) are
  modelled explicitly in `storeClamped`.
* The Lanczos kernel of the source
  (`a*sin(πx)*sin(πx/a)/(πx)²`, `a = 3`) evaluates the transcendental
  `Math.sin`, which has no exact executable counterpart; the resampler is
  therefore parametrised by the kernel `k : ℚ → ℚ`, and the facts of the
  source kernel a proof needs (value 1 at 0, value 0 at nonzero integer
  offsets, since `sin (π n) = 0`) are stated as the `LanczosKernelFacts`
  hypothesis.
* `while` loops whose iteration count depends on rational state are
  modelled with structural recursion on an explicit fuel argument that is
  provably larger than the number of iterations the JS loop performs
  (lemmas below establish the loop finishes before the fuel runs out for
  the inputs the claims quantify over).
-/

namespace Ratools

/-- JS `Math.round`: round half toward positive infinity. -/
def jsRound (x : ℚ) : ℤ := ⌊x + 1/2⌋

/-- `Utils.clamp(value, min, max)` from `js/utils.js`:
`Math.min(Math.max(value, min), max)`. -/
def clamp (value lo hi : ℤ) : ℤ := min (max value lo) hi

/-- An RGBA pixel buffer (a canvas together with its `ImageData`): flat
row-major byte list, 4 interleaved channels per pixel. -/
structure Raster where
  width : ℕ
  height : ℕ
  data : List ℤ
deriving Repr, DecidableEq

/-- The inclusive integer range `[lo, hi]`, the index set of a JS
`for (i = lo; i <= hi; i++)` loop. -/
def intRange (lo hi : ℤ) : List ℤ :=
  (List.range (hi + 1 - lo).toNat).map fun i : ℕ => lo + (i : ℤ)

namespace ImageProcessor

/-- The effect of `destData.data[i] = Utils.clamp(Math.round(num/den), 0, 255)`
in `lanczosResample`, including the IEEE behaviour at `den = 0`: `0/0` is
`NaN` and a `Uint8ClampedArray` stores it as `0`; a nonzero numerator gives
`±Infinity`, stored as `255` / `0`. -/
def storeClamped (num den : ℚ) : ℤ :=
  if den = 0 then (if 0 < num then 255 else 0)
  else clamp (jsRound (num / den)) 0 255

/-- `srcData.data[(sy * srcWidth + sx) * 4 + c]`. -/
def sample (src : Raster) (sx sy : ℤ) (c : ℕ) : ℤ :=
  src.data.getD ((sy * src.width + sx) * 4 + c).toNat 0

/-- The continuous source coordinate of a destination index:
`srcX = x * scaleX` with `scaleX = srcWidth / targetWidth` (no half-pixel
offset in the source). -/
def srcCoord (srcDim tDim pos : ℕ) : ℚ := pos * ((srcDim : ℚ) / tDim)

/-- `Math.max(0, Math.floor(srcX) - filterSize)` with `filterSize = 3`. -/
def winLo (c : ℚ) : ℤ := max 0 (⌊c⌋ - 3)

/-- `Math.min(srcWidth - 1, Math.ceil(srcX) + filterSize)`. -/
def winHi (srcDim : ℕ) (c : ℚ) : ℤ := min ((srcDim : ℤ) - 1) (⌈c⌉ + 3)

/-- The clamped ±3 sampling window around the source coordinate of
destination index `pos`. -/
def window (srcDim tDim pos : ℕ) : List ℤ :=
  intRange (winLo (srcCoord srcDim tDim pos)) (winHi srcDim (srcCoord srcDim tDim pos))

/-- `weightSum` accumulated by the inner loops of `lanczosResample`:
`Σ_{sy} Σ_{sx} lanczos(srcX - sx) * lanczos(srcY - sy)`. -/
def weightSum (k : ℚ → ℚ) (src : Raster) (tW tH x y : ℕ) : ℚ :=
  ((window src.height tH y).map fun sy : ℤ =>
    ((window src.width tW x).map fun sx : ℤ =>
      k (srcCoord src.width tW x - (sx : ℚ)) *
        k (srcCoord src.height tH y - (sy : ℚ))).sum).sum

/-- The per-channel accumulator of `lanczosResample`:
`Σ_{sy} Σ_{sx} srcData[(sy*srcWidth+sx)*4 + c] * weight`. -/
def chanSum (k : ℚ → ℚ) (src : Raster) (tW tH x y c : ℕ) : ℚ :=
  ((window src.height tH y).map fun sy : ℤ =>
    ((window src.width tW x).map fun sx : ℤ =>
      ((sample src sx sy c : ℤ) : ℚ) *
        (k (srcCoord src.width tW x - (sx : ℚ)) *
          k (srcCoord src.height tH y - (sy : ℚ)))).sum).sum

/-- One destination pixel of `lanczosResample`: each channel is
`Utils.clamp(Math.round(channelSum / weightSum), 0, 255)`. -/
def lanczosPixel (k : ℚ → ℚ) (src : Raster) (tW tH x y : ℕ) : List ℤ :=
  [0, 1, 2, 3].map fun c =>
    storeClamped (chanSum k src tW tH x y c) (weightSum k src tW tH x y)

/-- `ImageProcessor.lanczosResample(srcCanvas, targetWidth, targetHeight)`:
a fresh `targetWidth × targetHeight` canvas whose pixels are the Lanczos
weighted sums of the clamped ±3 source windows.  (The chunking of the `y`
loop only schedules progress callbacks and UI yields; it does not change
the pixel data, which is produced here in plain row-major order.) -/
def lanczosResample (k : ℚ → ℚ) (src : Raster) (tW tH : ℕ) : Raster :=
  ⟨tW, tH, (List.range tH).flatMap fun y =>
    (List.range tW).flatMap fun x => lanczosPixel k src tW tH x y⟩

/-- `Math.ceil(targetHeight / 10)`: the scan-line chunk size of the direct
Lanczos pass. -/
def chunkSize (tH : ℕ) : ℕ := (⌈(tH : ℚ) / 10⌉).toNat

/-- Number of iterations of `for (startY = 0; startY < targetHeight;
startY += chunkSize)`. -/
def numChunks (tH : ℕ) : ℕ :=
  if chunkSize tH = 0 then 0 else (tH + chunkSize tH - 1) / chunkSize tH

/-- The progress percentages reported by the direct Lanczos pass: after each
chunk, `10 + 80 * endY / targetHeight` with `endY = min(startY + chunkSize,
targetHeight)`. -/
def lanczosTrace (tH : ℕ) : List ℚ :=
  (List.range (numChunks tH)).map fun i =>
    10 + 80 * ((min ((i + 1) * chunkSize tH) tH : ℕ) : ℚ) / tH

/-- One destination pixel of the browser's built-in high-quality scaler.
Modelled from the spec: `drawImage` with `imageSmoothingQuality = "high"` is
"a standard image-scaling primitive configured for highest quality", i.e. a
quality-biased linear interpolation filter; it is a browser primitive, not
code of this repository, and is modelled as centre-aligned bilinear
interpolation with edge clamping, rounded and clamped to bytes. -/
def bilinearPixel (src : Raster) (tW tH x y : ℕ) : List ℤ :=
  let sx : ℚ := ((x : ℚ) + 1/2) * ((src.width : ℚ) / tW) - 1/2
  let sy : ℚ := ((y : ℚ) + 1/2) * ((src.height : ℚ) / tH) - 1/2
  let x0 : ℤ := ⌊sx⌋
  let y0 : ℤ := ⌊sy⌋
  let fx : ℚ := sx - x0
  let fy : ℚ := sy - y0
  let cx : ℤ → ℤ := fun v => min (max v 0) ((src.width : ℤ) - 1)
  let cy : ℤ → ℤ := fun v => min (max v 0) ((src.height : ℤ) - 1)
  [0, 1, 2, 3].map fun c =>
    clamp (jsRound ((1 - fx) * (1 - fy) * (sample src (cx x0) (cy y0) c)
      + fx * (1 - fy) * (sample src (cx (x0 + 1)) (cy y0) c)
      + (1 - fx) * fy * (sample src (cx x0) (cy (y0 + 1)) c)
      + fx * fy * (sample src (cx (x0 + 1)) (cy (y0 + 1)) c))) 0 255

/-- Modelled from the spec (browser primitive, see `bilinearPixel`): a
`destCanvas` of the given dimensions filled by one high-quality
`drawImage(srcCanvas, 0, 0, targetWidth, targetHeight)` call.  The canvas
dimensions themselves (`destCanvas.width = targetWidth; destCanvas.height =
targetHeight`) are set by the repository source. -/
def drawImageScaled (src : Raster) (tW tH : ℕ) : Raster :=
  ⟨tW, tH, (List.range tH).flatMap fun y =>
    (List.range tW).flatMap fun x => bilinearPixel src tW tH x y⟩

/-- `ImageProcessor.upscaleBilinear`: one built-in high-quality resize; the
progress callback is invoked once with 90. -/
def upscaleBilinear (src : Raster) (tW tH : ℕ) : Raster × List ℚ :=
  (drawImageScaled src tW tH, [90])

/-- The step-planning `while` loop of `ImageProcessor.upscaleBicubic`:
`while (w < targetWidth || h < targetHeight) { w = min(w*2, targetWidth);
h = min(h*2, targetHeight); steps.push({w, h}) }`, with structural fuel. -/
def bicubicStepsGo (tW tH : ℕ) : ℕ → ℕ → ℕ → List (ℕ × ℕ)
  | 0, _, _ => []
  | fuel + 1, w, h =>
    if w < tW ∨ h < tH then
      (min (w * 2) tW, min (h * 2) tH) ::
        bicubicStepsGo tW tH fuel (min (w * 2) tW) (min (h * 2) tH)
    else []

/-- The full step plan of `upscaleBicubic`: the doubling loop (the fuel
`tW + tH + 1` exceeds the loop's iteration count for every source with
positive dimensions, since the size at least doubles each pass), then
"make sure final step reaches target": if the last step is not exactly
`(targetWidth, targetHeight)` (in particular if there are no steps), push
the target. -/
def bicubicSteps (srcW srcH tW tH : ℕ) : List (ℕ × ℕ) :=
  let steps := bicubicStepsGo tW tH (tW + tH + 1) srcW srcH
  if steps.getLast? = some (tW, tH) then steps else steps ++ [(tW, tH)]

/-- `ImageProcessor.upscaleBicubic`: fold the built-in resize over the step
plan, resizing the *current* canvas each time; after step `i` the progress
callback receives `10 + 80 * (i+1) / steps.length`. -/
def upscaleBicubic (src : Raster) (tW tH : ℕ) : Raster × List ℚ :=
  let steps := bicubicSteps src.width src.height tW tH
  (steps.foldl (fun c s => drawImageScaled c s.1 s.2) src,
    (List.range steps.length).map fun i : ℕ =>
      10 + 80 * ((i : ℚ) + 1) / (steps.length : ℚ))

/-- Fuel-structural computation of `Math.ceil(Math.log2 s)` for `s > 1`:
halve until ≤ 1.  `ceilLog2` below instantiates the fuel with a provably
sufficient bound. -/
def ceilLog2Aux : ℕ → ℚ → ℕ
  | 0, _ => 0
  | fuel + 1, s => if s ≤ 1 then 0 else ceilLog2Aux fuel (s / 2) + 1

/-- `Math.ceil(Math.log2(scale))` as used for `totalSteps` in
`upscaleLanczos`: the least `n` with `s ≤ 2^n` (proved below), which is
`⌈log₂ s⌉` for `s > 1`. -/
def ceilLog2 (s : ℚ) : ℕ := ceilLog2Aux (⌈s⌉.toNat + 1) s

/-- The staged `while (currentScale < targetScale)` loop of
`upscaleLanczos`: compute `nextScale = min(currentScale * 2, targetScale)`,
resample the *current* canvas to `round(srcWidth * nextScale) ×
round(srcHeight * nextScale)` (dimensions always derived from the original
source canvas), and continue.  Returns the final canvas and the list of
intermediate pass dimensions; fuel-structural, with the caller passing
provably sufficient fuel. -/
def stagedGo (k : ℚ → ℚ) (srcW srcH : ℕ) (target : ℚ) :
    ℕ → ℚ → Raster → Raster × List (ℕ × ℕ)
  | 0, _, c => (c, [])
  | fuel + 1, cur, c =>
    if cur < target then
      let next := min (cur * 2) target
      let nW := (jsRound ((srcW : ℚ) * next)).toNat
      let nH := (jsRound ((srcH : ℚ) * next)).toNat
      let r2 := stagedGo k srcW srcH target fuel next (lanczosResample k c nW nH)
      (r2.1, (nW, nH) :: r2.2)
    else (c, [])

/-- `ImageProcessor.upscaleLanczos(srcCanvas, targetWidth, targetHeight)`:
if `scale = targetWidth / srcCanvas.width ≤ 2`, one direct Lanczos pass
(whose chunked progress callbacks are `lanczosTrace`); otherwise the staged
doubling loop, whose passes run `lanczosResample` *without* a progress
callback, the per-pass callback being
`10 + 80 * stepNum / totalSteps` with `totalSteps = ceil(log2 scale)`. -/
def upscaleLanczos (k : ℚ → ℚ) (src : Raster) (tW tH : ℕ) : Raster × List ℚ :=
  let scale : ℚ := (tW : ℚ) / src.width
  if scale ≤ 2 then
    (lanczosResample k src tW tH, lanczosTrace tH)
  else
    let r := stagedGo k src.width src.height scale (⌈scale⌉.toNat + 1) 1 src
    (r.1, (List.range r.2.length).map fun i : ℕ =>
      10 + 80 * ((i : ℚ) + 1) / (ceilLog2 scale : ℚ))

/-- The pass plan the staged loop of `upscaleLanczos` executes for a total
scale factor `s` (starting from `currentScale = 1`): pass `i` targets
`nextScale = min(2^(i+1), s)` at dimensions
`round(srcW*nextScale) × round(srcH*nextScale)`, for
`i < ceilLog2 s = ceil(log2 s)`. -/
def stagedPlan (srcW srcH : ℕ) (s : ℚ) : List (ℕ × ℕ) :=
  (List.range (ceilLog2 s)).map fun i =>
    ((jsRound ((srcW : ℚ) * min (2 ^ (i + 1)) s)).toNat,
     (jsRound ((srcH : ℚ) * min (2 ^ (i + 1)) s)).toNat)

/-- The algorithm selector of `ImageProcessor.upscale` (the `switch` sends
any other string to the `lanczos` default). -/
inductive Algorithm where
  | bilinear
  | bicubic
  | lanczos
deriving Repr, DecidableEq

/-- `ImageProcessor.upscale(targetWidth, targetHeight, algorithm,
progressCallback)`: report 0, aspect-fit the request
(`scale = min(targetWidth/srcWidth, targetHeight/srcHeight)`,
`newWidth = round(srcWidth*scale)`, `newHeight = round(srcHeight*scale)`),
report 10, run the selected strategy at `(newWidth, newHeight)`, and
report 100.  Returns the result canvas and the full sequence of progress
callback values. -/
def upscale (k : ℚ → ℚ) (img : Raster) (tW tH : ℕ) (alg : Algorithm) :
    Raster × List ℚ :=
  let scale : ℚ := min ((tW : ℚ) / img.width) ((tH : ℚ) / img.height)
  let newW : ℕ := (jsRound ((img.width : ℚ) * scale)).toNat
  let newH : ℕ := (jsRound ((img.height : ℚ) * scale)).toNat
  let res :=
    match alg with
    | .bilinear => upscaleBilinear img newW newH
    | .bicubic => upscaleBicubic img newW newH
    | .lanczos => upscaleLanczos k img newW newH
  (res.1, 0 :: 10 :: (res.2 ++ [100]))

/-- The facts about the source's Lanczos-3 kernel
`x = 0 ↦ 1`, `x ≠ 0 ↦ 3*sin(πx)*sin(πx/3)/(πx)²` that the theorems below
use: it is 1 at offset 0 and vanishes at every nonzero integer offset
(`sin (π n) = 0`). -/
def LanczosKernelFacts (k : ℚ → ℚ) : Prop :=
  k 0 = 1 ∧ ∀ n : ℤ, n ≠ 0 → k (n : ℚ) = 0

/-- The "direct nearest-sample copy" of the specification: the source pixel
at `(Math.round(srcX), Math.round(srcY))`. -/
def nearestSample (src : Raster) (tW tH x y : ℕ) : List ℤ :=
  [0, 1, 2, 3].map fun c =>
    sample src (jsRound (srcCoord src.width tW x)) (jsRound (srcCoord src.height tH y)) c

end ImageProcessor

namespace GridSplitter

/-- The fields of the grid `config` that `splitIntoTiles` reads.
(`effectiveWidthPx`/`effectiveHeightPx` are destructured but unused by the
function; crop-mark drawing is a cosmetic overlay and is omitted, as are
the cosmetic `position`/`label` strings of a tile.) -/
structure GridConfig where
  cols : ℤ
  rows : ℤ
  a4WidthPx : ℚ
  a4HeightPx : ℚ
  overlapPx : ℚ
deriving Repr, DecidableEq

/-- One tile produced by `splitIntoTiles`: grid position, linear index, the
clamped source rectangle drawn onto the (a4WidthPx × a4HeightPx) page
canvas, and the four overlap-edge booleans. -/
structure Tile where
  row : ℕ
  col : ℕ
  index : ℕ
  srcX : ℚ
  srcY : ℚ
  srcWidth : ℚ
  srcHeight : ℚ
  hasLeftOverlap : Bool
  hasTopOverlap : Bool
  hasRightOverlap : Bool
  hasBottomOverlap : Bool
deriving Repr, DecidableEq

/-- The body of the double tile loop of `GridSplitter.splitIntoTiles` for
grid position `(row, col)`: source rectangle with per-edge overlap
expansion, then clamping to the canvas bounds (`srcX = max(0, srcX)` first,
then `srcWidth = min(srcWidth, sourceWidth - srcX)` with the clamped
`srcX`). -/
def mkTile (sourceWidth sourceHeight : ℕ) (cfg : GridConfig) (row col : ℕ) : Tile :=
  let tileContentWidth : ℚ := (sourceWidth : ℚ) / cfg.cols
  let tileContentHeight : ℚ := (sourceHeight : ℚ) / cfg.rows
  let overlapSourceX : ℚ := cfg.overlapPx * tileContentWidth / cfg.a4WidthPx
  let overlapSourceY : ℚ := cfg.overlapPx * tileContentHeight / cfg.a4HeightPx
  let srcX0 : ℚ := col * tileContentWidth - (if 0 < col then overlapSourceX else 0)
  let srcY0 : ℚ := row * tileContentHeight - (if 0 < row then overlapSourceY else 0)
  let srcW0 : ℚ := tileContentWidth + (if 0 < col then overlapSourceX else 0)
    + (if (col : ℤ) < cfg.cols - 1 then overlapSourceX else 0)
  let srcH0 : ℚ := tileContentHeight + (if 0 < row then overlapSourceY else 0)
    + (if (row : ℤ) < cfg.rows - 1 then overlapSourceY else 0)
  let srcX : ℚ := max 0 srcX0
  let srcY : ℚ := max 0 srcY0
  { row := row
    col := col
    index := row * cfg.cols.toNat + col
    srcX := srcX
    srcY := srcY
    srcWidth := min srcW0 ((sourceWidth : ℚ) - srcX)
    srcHeight := min srcH0 ((sourceHeight : ℚ) - srcY)
    hasLeftOverlap := 0 < col
    hasTopOverlap := 0 < row
    hasRightOverlap := (col : ℤ) < cfg.cols - 1
    hasBottomOverlap := (row : ℤ) < cfg.rows - 1 }

/-- `GridSplitter.splitIntoTiles(canvas, config)`: the row-major double
loop `for (row = 0; row < rows; row++) for (col = 0; col < cols; col++)`
over `mkTile` (a loop bound that is zero or negative runs no iterations).
The function body contains no input validation and no failure path. -/
def splitIntoTiles (sourceWidth sourceHeight : ℕ) (cfg : GridConfig) : List Tile :=
  (List.range cfg.rows.toNat).flatMap fun row =>
    (List.range cfg.cols.toNat).map fun col =>
      mkTile sourceWidth sourceHeight cfg row col

end GridSplitter

/-! Concrete inputs used by the counterexample and witness theorems. -/

namespace ImageProcessor

/-- A concrete kernel with the integer-offset facts of the Lanczos kernel:
1 at 0 and 0 elsewhere. -/
def kDelta : ℚ → ℚ := fun x => if x = 0 then 1 else 0

/-- A concrete kernel whose window sum can vanish (`k 0 = 1`,
`k (-1) = -1`): used to exhibit, structurally, what the unguarded division
in `lanczosResample` produces when `weightSum = 0`. -/
def kNeg : ℚ → ℚ := fun x => if x = 0 then 1 else if x = -1 then -1 else 0

/-- A 1×1 grey source image. -/
def img1 : Raster := ⟨1, 1, [100, 110, 120, 255]⟩

/-- A 2×1 source image with two equal grey pixels. -/
def img2 : Raster := ⟨2, 1, [200, 200, 200, 255, 200, 200, 200, 255]⟩

end ImageProcessor

namespace GridSplitter

/-- A grid config with a negative overlap, which the spec says must be
rejected. -/
def cfgNeg : GridConfig := ⟨1, 1, 100, 100, -5⟩

/-- A 1×2 grid with zero overlap. -/
def cfg0 : GridConfig := ⟨1, 2, 100, 100, 0⟩

/-- A 2×2 grid with positive overlap (10px on a 100px page). -/
def cfgPos : GridConfig := ⟨2, 2, 100, 100, 10⟩

end GridSplitter

end Ratools

namespace Ratools

/-- Length of a `flatMap` whose pieces all have the same length. -/
theorem length_flatMap_const {α β : Type} (l : List α) (f : α → List β) (m : ℕ)
    (h : ∀ a ∈ l, (f a).length = m) : (l.flatMap f).length = l.length * m := by
  induction l with
  | nil => simp
  | cons a t ih =>
    have ha := h a (by simp)
    have ht := ih fun b hb => h b (by simp [hb])
    simp [List.flatMap_cons, ha, ht, Nat.succ_mul, Nat.add_comm]

namespace ImageProcessor

/-- Bytes written through `storeClamped` always land in [0, 255]. -/
theorem storeClamped_bounds (num den : ℚ) :
    0 ≤ storeClamped num den ∧ storeClamped num den ≤ 255 := by
  unfold storeClamped clamp
  split
  · split <;> norm_num
  · exact ⟨le_min (le_max_right _ _) (by norm_num), min_le_right _ _⟩

/-- Bytes written through `Utils.clamp(·, 0, 255)` always land in [0, 255]. -/
theorem clamp_byte_bounds (v : ℤ) : 0 ≤ clamp v 0 255 ∧ clamp v 0 255 ≤ 255 :=
  ⟨le_min (le_max_right _ _) (by norm_num), min_le_right _ _⟩

theorem lanczosPixel_length (k : ℚ → ℚ) (src : Raster) (tW tH x y : ℕ) :
    (lanczosPixel k src tW tH x y).length = 4 := rfl

theorem bilinearPixel_length (src : Raster) (tW tH x y : ℕ) :
    (bilinearPixel src tW tH x y).length = 4 := rfl

theorem mem_lanczosPixel_bounds (k : ℚ → ℚ) (src : Raster) (tW tH x y : ℕ)
    (v : ℤ) (hv : v ∈ lanczosPixel k src tW tH x y) : 0 ≤ v ∧ v ≤ 255 := by
  simp only [lanczosPixel, List.mem_map] at hv
  obtain ⟨c, _, rfl⟩ := hv
  exact storeClamped_bounds _ _

theorem mem_bilinearPixel_bounds (src : Raster) (tW tH x y : ℕ)
    (v : ℤ) (hv : v ∈ bilinearPixel src tW tH x y) : 0 ≤ v ∧ v ≤ 255 := by
  simp only [bilinearPixel, List.mem_map] at hv
  obtain ⟨c, _, rfl⟩ := hv
  exact clamp_byte_bounds _

theorem lanczosResample_data_length (k : ℚ → ℚ) (src : Raster) (tW tH : ℕ) :
    (lanczosResample k src tW tH).data.length = tW * tH * 4 := by
  unfold lanczosResample
  have hrow : ∀ y ∈ List.range tH,
      ((List.range tW).flatMap fun x => lanczosPixel k src tW tH x y).length = tW * 4 := by
    intro y _
    rw [length_flatMap_const _ _ 4 fun x _ => lanczosPixel_length k src tW tH x y]
    simp
  rw [length_flatMap_const _ _ (tW * 4) hrow]
  simp only [List.length_range]
  ring

theorem drawImageScaled_data_length (src : Raster) (tW tH : ℕ) :
    (drawImageScaled src tW tH).data.length = tW * tH * 4 := by
  unfold drawImageScaled
  have hrow : ∀ y ∈ List.range tH,
      ((List.range tW).flatMap fun x => bilinearPixel src tW tH x y).length = tW * 4 := by
    intro y _
    rw [length_flatMap_const _ _ 4 fun x _ => bilinearPixel_length src tW tH x y]
    simp
  rw [length_flatMap_const _ _ (tW * 4) hrow]
  simp only [List.length_range]
  ring

theorem mem_lanczosResample_bounds (k : ℚ → ℚ) (src : Raster) (tW tH : ℕ)
    (v : ℤ) (hv : v ∈ (lanczosResample k src tW tH).data) : 0 ≤ v ∧ v ≤ 255 := by
  simp only [lanczosResample, List.mem_flatMap] at hv
  obtain ⟨y, _, x, _, hpx⟩ := hv
  exact mem_lanczosPixel_bounds k src tW tH x y v hpx

theorem mem_drawImageScaled_bounds (src : Raster) (tW tH : ℕ)
    (v : ℤ) (hv : v ∈ (drawImageScaled src tW tH).data) : 0 ≤ v ∧ v ≤ 255 := by
  simp only [drawImageScaled, List.mem_flatMap] at hv
  obtain ⟨y, _, x, _, hpx⟩ := hv
  exact mem_bilinearPixel_bounds src tW tH x y v hpx

theorem jsRound_natCast (n : ℕ) : jsRound (n : ℚ) = n := by
  unfold jsRound
  rw [show ((n : ℕ) : ℚ) = ((n : ℤ) : ℚ) by push_cast; ring, Int.floor_int_add]
  norm_num

/-- Galois characterisation of the fuelled halving loop: with sufficient
fuel, `ceilLog2Aux fuel s ≤ j` iff `s ≤ 2^j`. -/
theorem ceilLog2Aux_le_iff : ∀ (fuel : ℕ) (s : ℚ), s ≤ 2 ^ fuel →
    ∀ j : ℕ, (ceilLog2Aux fuel s ≤ j ↔ s ≤ 2 ^ j) := by
  intro fuel
  induction fuel with
  | zero =>
    intro s hs j
    simp only [ceilLog2Aux]
    refine ⟨fun _ => ?_, fun _ => Nat.zero_le j⟩
    calc s ≤ 2 ^ 0 := hs
      _ ≤ 2 ^ j := pow_le_pow_right₀ one_le_two (Nat.zero_le j)
  | succ f ih =>
    intro s hs j
    by_cases h1 : s ≤ 1
    · simp only [ceilLog2Aux, if_pos h1]
      refine ⟨fun _ => ?_, fun _ => Nat.zero_le j⟩
      calc s ≤ 1 := h1
        _ = 2 ^ 0 := by norm_num
        _ ≤ 2 ^ j := pow_le_pow_right₀ one_le_two (Nat.zero_le j)
    · simp only [ceilLog2Aux, if_neg h1]
      push_neg at h1
      have hs2 : s / 2 ≤ 2 ^ f := by
        rw [div_le_iff₀ (by norm_num : (0:ℚ) < 2)]
        calc s ≤ 2 ^ (f + 1) := hs
          _ = 2 ^ f * 2 := by ring
      cases j with
      | zero =>
        refine iff_of_false (by omega) ?_
        rw [pow_zero]
        exact not_le.mpr h1
      | succ m =>
        rw [Nat.succ_le_succ_iff, ih (s / 2) hs2 m,
          div_le_iff₀ (by norm_num : (0:ℚ) < 2), pow_succ]

/-- Any rational is below `2 ^ (⌈s⌉.toNat + 1)` (the fuel bound used by
`ceilLog2` and by the staged Lanczos loop). -/
theorem q_le_two_pow (s : ℚ) : s ≤ 2 ^ (⌈s⌉.toNat + 1) := by
  rcases le_or_lt s 0 with h | h
  · calc s ≤ 0 := h
      _ ≤ 2 ^ (⌈s⌉.toNat + 1) := by positivity
  · have h1 : s ≤ ((⌈s⌉.toNat : ℕ) : ℚ) := by
      calc s ≤ (⌈s⌉ : ℚ) := Int.le_ceil s
        _ = ((⌈s⌉.toNat : ℕ) : ℚ) := by
          exact_mod_cast congrArg (fun z : ℤ => (z : ℚ))
            (Int.toNat_of_nonneg (Int.ceil_nonneg h.le)).symm
    have h2 : ((⌈s⌉.toNat : ℕ) : ℚ) < 2 ^ ⌈s⌉.toNat := by
      exact_mod_cast Nat.lt_two_pow _
    calc s ≤ ((⌈s⌉.toNat : ℕ) : ℚ) := h1
      _ ≤ 2 ^ (⌈s⌉.toNat + 1) :=
        le_of_lt (lt_of_lt_of_le h2 (pow_le_pow_right₀ one_le_two (Nat.le_succ _)))

/-- `ceilLog2 s` is the least `j` with `s ≤ 2^j`: this is exactly
`Math.ceil(Math.log2 s)` for `s > 1`. -/
theorem ceilLog2_le_iff (s : ℚ) (j : ℕ) : ceilLog2 s ≤ j ↔ s ≤ 2 ^ j :=
  ceilLog2Aux_le_iff _ s (q_le_two_pow s) j

theorem ceilLog2_div_le_iff (target cur : ℚ) (hcur : 0 < cur) (j : ℕ) :
    ceilLog2 (target / cur) ≤ j ↔ target ≤ 2 ^ j * cur := by
  rw [ceilLog2_le_iff, div_le_iff₀ hcur]

/-- The canvas returned by the staged loop is the fold of
`lanczosResample` over the list of pass dimensions it reports, starting
from the loop's input canvas: pass `k+1` consumes the output of pass `k`,
not the original source. -/
theorem stagedGo_fst (k : ℚ → ℚ) (srcW srcH : ℕ) (target : ℚ) :
    ∀ (fuel : ℕ) (cur : ℚ) (c : Raster),
      (stagedGo k srcW srcH target fuel cur c).1 =
        (stagedGo k srcW srcH target fuel cur c).2.foldl
          (fun r p => lanczosResample k r p.1 p.2) c := by
  intro fuel
  induction fuel with
  | zero => intro cur c; simp [stagedGo]
  | succ f ih =>
    intro cur c
    by_cases h : cur < target
    · simp only [stagedGo, if_pos h, List.foldl_cons]
      exact ih _ _
    · simp [stagedGo, if_neg h]

/-- With fuel at least the number of iterations left (in the form
`target ≤ 2^fuel * cur`), the staged loop's pass list is exactly the plan
`nextScale_i = min(2^(i+1) * cur, target)`,
dimensions `round(srcW*nextScale) × round(srcH*nextScale)`, for
`i < ceilLog2 (target/cur)` — the loop runs exactly
`ceil(log2(target/cur))` times. -/
theorem stagedGo_snd (k : ℚ → ℚ) (srcW srcH : ℕ) (target : ℚ) :
    ∀ (fuel : ℕ) (cur : ℚ) (c : Raster), 1 ≤ cur → target ≤ 2 ^ fuel * cur →
      (stagedGo k srcW srcH target fuel cur c).2 =
        (List.range (ceilLog2 (target / cur))).map fun i =>
          ((jsRound ((srcW : ℚ) * min (2 ^ (i + 1) * cur) target)).toNat,
           (jsRound ((srcH : ℚ) * min (2 ^ (i + 1) * cur) target)).toNat) := by
  intro fuel
  induction fuel with
  | zero =>
    intro cur c hcur hf
    have hcur0 : (0 : ℚ) < cur := lt_of_lt_of_le one_pos hcur
    have hm : ceilLog2 (target / cur) = 0 :=
      Nat.le_zero.mp ((ceilLog2_div_le_iff target cur hcur0 0).mpr (by simpa using hf))
    rw [hm]
    simp [stagedGo]
  | succ f ih =>
    intro cur c hcur hf
    have hcur0 : (0 : ℚ) < cur := lt_of_lt_of_le one_pos hcur
    by_cases h : cur < target
    · have ht1 : (1 : ℚ) ≤ target := le_of_lt (lt_of_le_of_lt hcur h)
      have ht0 : (0 : ℚ) < target := lt_of_lt_of_le one_pos ht1
      rcases min_cases (cur * 2) target with ⟨hmin, hle⟩ | ⟨hmin, hlt⟩
      · -- doubling step: next = cur * 2 ≤ target
        have hcur20 : (0 : ℚ) < cur * 2 := by linarith
        have hnext1 : (1 : ℚ) ≤ cur * 2 := by linarith
        have hnextf : target ≤ 2 ^ f * (cur * 2) := by
          calc target ≤ 2 ^ (f + 1) * cur := hf
            _ = 2 ^ f * (cur * 2) := by ring
        have hnotle : ¬ (target ≤ 2 ^ ceilLog2 (target / (cur * 2)) * cur) := by
          intro hcc
          cases hm2 : ceilLog2 (target / (cur * 2)) with
          | zero =>
            rw [hm2, pow_zero, one_mul] at hcc
            exact absurd hcc (not_le.mpr h)
          | succ j =>
            rw [hm2] at hcc
            have hstep : target ≤ 2 ^ j * (cur * 2) := by
              calc target ≤ 2 ^ (j + 1) * cur := hcc
                _ = 2 ^ j * (cur * 2) := by ring
            have hj := (ceilLog2_div_le_iff target (cur * 2) hcur20 j).mpr hstep
            omega
        have hm : ceilLog2 (target / cur) = ceilLog2 (target / (cur * 2)) + 1 := by
          apply le_antisymm
          · rw [ceilLog2_div_le_iff target cur hcur0]
            have hx := (ceilLog2_div_le_iff target (cur * 2) hcur20
              (ceilLog2 (target / (cur * 2)))).mp le_rfl
            calc target ≤ 2 ^ ceilLog2 (target / (cur * 2)) * (cur * 2) := hx
              _ = 2 ^ (ceilLog2 (target / (cur * 2)) + 1) * cur := by ring
          · by_contra hcon
            push_neg at hcon
            exact hnotle
              ((ceilLog2_div_le_iff target cur hcur0 _).mp (by omega))
        rw [hm]
        simp only [stagedGo, if_pos h]
        rw [hmin]
        rw [ih (cur * 2) _ hnext1 hnextf]
        rw [List.range_succ_eq_map, List.map_cons, List.map_map]
        congr 1
        · rw [show (2 : ℚ) ^ (0 + 1) * cur = cur * 2 by ring, hmin]
        · apply List.map_congr_left
          intro i _
          simp only [Function.comp_apply]
          rw [show (2 : ℚ) ^ (i + 1) * (cur * 2) = 2 ^ (i.succ + 1) * cur by
            simp only [Nat.succ_eq_add_one, pow_succ]; ring]
      · -- final partial step: next = target < cur * 2
        have h1f : (1 : ℚ) ≤ 2 ^ f := by
          calc (1 : ℚ) = 2 ^ 0 := by norm_num
            _ ≤ 2 ^ f := pow_le_pow_right₀ one_le_two (Nat.zero_le f)
        have htf : target ≤ 2 ^ f * target := le_mul_of_one_le_left ht0.le h1f
        have hm : ceilLog2 (target / cur) = 1 := by
          apply le_antisymm
          · rw [ceilLog2_div_le_iff target cur hcur0]
            rw [pow_one]
            linarith
          · by_contra hcon
            push_neg at hcon
            have hz : ceilLog2 (target / cur) = 0 := by omega
            have hx := (ceilLog2_div_le_iff target cur hcur0 0).mp (le_of_eq hz)
            rw [pow_zero, one_mul] at hx
            exact absurd hx (not_le.mpr h)
        rw [hm]
        simp only [stagedGo, if_pos h]
        rw [hmin]
        rw [ih target _ ht1 htf]
        have hdiv : target / target = 1 := div_self ht0.ne'
        have hone : ceilLog2 (1 : ℚ) = 0 :=
          Nat.le_zero.mp ((ceilLog2_le_iff 1 0).mpr (by norm_num))
        rw [hdiv, hone]
        rw [List.range_succ_eq_map]
        simp only [List.range_zero, List.map_nil, List.map_cons]
        congr 1
        rw [show (2 : ℚ) ^ (0 + 1) * cur = cur * 2 by ring, hmin]
    · push_neg at h
      have hm : ceilLog2 (target / cur) = 0 :=
        Nat.le_zero.mp ((ceilLog2_div_le_iff target cur hcur0 0).mpr (by simpa using h))
      rw [hm]
      simp [stagedGo, if_neg (not_lt.mpr h)]

/-- A nonempty fold is one step applied to the fold of the other steps. -/
theorem foldl_eq_step_getLast {α β : Type} (step : α → β → α) (l : List β)
    (hne : l ≠ []) (c : α) :
    l.foldl step c = step (l.dropLast.foldl step c) (l.getLast hne) := by
  conv_lhs => rw [← List.dropLast_append_getLast hne]
  simp [List.foldl_append]

theorem ceilLog2_pos_spec (s : ℚ) (hs : 1 < s) :
    s ≤ 2 ^ ceilLog2 s ∧ (2 : ℚ) ^ (ceilLog2 s - 1) < s ∧ 1 ≤ ceilLog2 s := by
  have h1 : s ≤ 2 ^ ceilLog2 s := (ceilLog2_le_iff s _).mp le_rfl
  have h3 : 1 ≤ ceilLog2 s := by
    by_contra hcon
    push_neg at hcon
    have hz : ceilLog2 s = 0 := by omega
    have := (ceilLog2_le_iff s 0).mp (le_of_eq hz)
    rw [pow_zero] at this
    exact absurd this (not_le.mpr hs)
  refine ⟨h1, ?_, h3⟩
  have hnotle : ¬ (ceilLog2 s ≤ ceilLog2 s - 1) := by omega
  have := (ceilLog2_le_iff s (ceilLog2 s - 1)).not.mp hnotle
  exact not_le.mp this

/-- In the direct branch (`scale ≤ 2`) `upscaleLanczos` is a single
`lanczosResample` pass with the chunked progress trace. -/
theorem upscaleLanczos_direct (k : ℚ → ℚ) (src : Raster) (tW tH : ℕ)
    (hs : (tW : ℚ) / src.width ≤ 2) :
    upscaleLanczos k src tW tH = (lanczosResample k src tW tH, lanczosTrace tH) := by
  rw [upscaleLanczos]
  exact if_pos hs

/-- In the staged branch (`scale > 2`) `upscaleLanczos` folds
`lanczosResample` over exactly the pass plan `stagedPlan`, and reports one
progress value per executed pass. -/
theorem upscaleLanczos_staged (k : ℚ → ℚ) (src : Raster) (tW tH : ℕ)
    (hs : 2 < (tW : ℚ) / src.width) :
    upscaleLanczos k src tW tH =
      ((stagedPlan src.width src.height ((tW : ℚ) / src.width)).foldl
          (fun r p => lanczosResample k r p.1 p.2) src,
        (List.range (stagedPlan src.width src.height ((tW : ℚ) / src.width)).length).map
          fun i : ℕ => 10 + 80 * ((i : ℚ) + 1) / (ceilLog2 ((tW : ℚ) / src.width) : ℚ)) := by
  rw [upscaleLanczos]
  rw [if_neg (not_le.mpr hs)]
  have hfuel : (tW : ℚ) / src.width ≤ 2 ^ (⌈(tW : ℚ) / src.width⌉.toNat + 1) * 1 := by
    rw [mul_one]
    exact q_le_two_pow _
  have hsnd := stagedGo_snd k src.width src.height ((tW : ℚ) / src.width)
    (⌈(tW : ℚ) / src.width⌉.toNat + 1) 1 src le_rfl hfuel
  have hplan : (stagedGo k src.width src.height ((tW : ℚ) / src.width)
      (⌈(tW : ℚ) / src.width⌉.toNat + 1) 1 src).2 =
      stagedPlan src.width src.height ((tW : ℚ) / src.width) := by
    rw [hsnd, stagedPlan, div_one]
    simp only [mul_one]
  have hfst := stagedGo_fst k src.width src.height ((tW : ℚ) / src.width)
    (⌈(tW : ℚ) / src.width⌉.toNat + 1) 1 src
  rw [Prod.ext_iff]
  constructor
  · simpa [hplan] using hfst
  · simp [hplan]

/-- The staged plan for `s > 2` is nonempty and its last pass targets the
full scale `s`. -/
theorem stagedPlan_getLast (srcW srcH : ℕ) (s : ℚ) (hs : 2 < s) :
    ∃ hne : stagedPlan srcW srcH s ≠ [],
      (stagedPlan srcW srcH s).getLast hne =
        ((jsRound ((srcW : ℚ) * s)).toNat, (jsRound ((srcH : ℚ) * s)).toNat) ∧
      (stagedPlan srcW srcH s).length = ceilLog2 s := by
  obtain ⟨hle, _, hpos⟩ := ceilLog2_pos_spec s (by linarith)
  have hlen : (stagedPlan srcW srcH s).length = ceilLog2 s := by
    simp [stagedPlan]
  have hne : stagedPlan srcW srcH s ≠ [] := by
    intro hnil
    rw [hnil] at hlen
    simp at hlen
    omega
  refine ⟨hne, ?_, hlen⟩
  have hN : ceilLog2 s = (ceilLog2 s - 1) + 1 := by omega
  have hmin : min ((2 : ℚ) ^ ((ceilLog2 s - 1) + 1)) s = s := by
    apply min_eq_right
    rw [← hN]
    exact hle
  have hlast2 : (stagedPlan srcW srcH s).getLast? =
      some ((jsRound ((srcW : ℚ) * s)).toNat, (jsRound ((srcH : ℚ) * s)).toNat) := by
    unfold stagedPlan
    rw [hN, List.range_succ, List.map_append]
    simp only [List.map_cons, List.map_nil, List.getLast?_concat, hmin]
  rw [List.getLast?_eq_getLast _ hne] at hlast2
  exact Option.some.inj hlast2

theorem jsRound_width_cancel (w t : ℕ) (hw : 1 ≤ w) :
    (jsRound ((w : ℚ) * ((t : ℚ) / w))).toNat = t := by
  have hne : ((w : ℕ) : ℚ) ≠ 0 := by
    exact_mod_cast Nat.pos_iff_ne_zero.mp hw
  rw [show (w : ℚ) * ((t : ℚ) / w) = ((t : ℕ) : ℚ) by field_simp]
  rw [jsRound_natCast]
  simp

/-- Element `i` of the staged pass plan. -/
theorem stagedPlan_getD (srcW srcH : ℕ) (s : ℚ) (i : ℕ) (hi : i < ceilLog2 s) :
    (stagedPlan srcW srcH s).getD i (0, 0) =
      ((jsRound ((srcW : ℚ) * min (2 ^ (i + 1)) s)).toNat,
       (jsRound ((srcH : ℚ) * min (2 ^ (i + 1)) s)).toNat) := by
  unfold stagedPlan
  have hlen : i < ((List.range (ceilLog2 s)).map fun i =>
      ((jsRound ((srcW : ℚ) * min (2 ^ (i + 1)) s)).toNat,
       (jsRound ((srcH : ℚ) * min (2 ^ (i + 1)) s)).toNat)).length := by
    simpa using hi
  rw [List.getD_eq_getElem _ _ hlen]
  simp

/-- Output dimensions of the staged branch: width is the requested target
width (the full scale is `targetWidth / srcWidth`), height is re-derived
from that same width scale. -/
theorem upscaleLanczos_staged_dims (k : ℚ → ℚ) (src : Raster) (tW tH : ℕ)
    (hw : 1 ≤ src.width) (hs : 2 < (tW : ℚ) / src.width) :
    (upscaleLanczos k src tW tH).1.width = tW ∧
      (upscaleLanczos k src tW tH).1.height =
        (jsRound ((src.height : ℚ) * ((tW : ℚ) / src.width))).toNat := by
  obtain ⟨hne, hlast, hlen⟩ := stagedPlan_getLast src.width src.height _ hs
  rw [upscaleLanczos_staged k src tW tH hs]
  show ((stagedPlan src.width src.height ((tW : ℚ) / src.width)).foldl
      (fun r p => lanczosResample k r p.1 p.2) src).width = tW ∧ _
  rw [foldl_eq_step_getLast _ _ hne, hlast]
  exact ⟨jsRound_width_cancel src.width tW hw, rfl⟩

/-- Claim C10: in the staged (`scale > 2`) branch of `upscaleLanczos`,
every pass dimension — including the final output — is derived solely from
the width ratio `targetWidth / srcWidth` applied to the original source
dimensions; the requested `targetHeight` is never consulted (the result is
literally the same function of the other arguments for every
`targetHeight`), and concretely a 1×1 source upscaled to requested 3×2
yields a 3×3 output, whose height 3 differs from the requested 2. -/
theorem upscaleLanczos_ignores_target_height (k : ℚ → ℚ) (src : Raster) (tW : ℕ)
    (hw : 1 ≤ src.width) (hs : 2 < (tW : ℚ) / src.width) :
    (∀ tH tH' : ℕ, upscaleLanczos k src tW tH = upscaleLanczos k src tW tH') ∧
      (∀ tH : ℕ, (upscaleLanczos k src tW tH).1.width = tW ∧
        (upscaleLanczos k src tW tH).1.height =
          (jsRound ((src.height : ℚ) * ((tW : ℚ) / src.width))).toNat) ∧
      (upscaleLanczos k img1 3 2).1.height = 3 ∧ (3 : ℕ) ≠ 2 := by
  have himg : 2 < (3 : ℚ) / (img1.width : ℕ) := by norm_num [img1]
  refine ⟨fun tH tH' => ?_, fun tH => upscaleLanczos_staged_dims k src tW tH hw hs, ?_, by omega⟩
  · rw [upscaleLanczos_staged k src tW tH hs, upscaleLanczos_staged k src tW tH' hs]
  · have hd := (upscaleLanczos_staged_dims k img1 3 2 (by norm_num [img1]) himg).2
    rw [hd]
    rw [show (img1.height : ℚ) * (((3 : ℕ) : ℚ) / (img1.width : ℚ)) = ((3 : ℕ) : ℚ) by
      norm_num [img1]]
    rw [jsRound_natCast]
    simp

/-- Claim C10, witness: the staged-branch hypotheses hold for the 1×1
source and target width 3, and the whole conclusion follows. -/
theorem upscaleLanczos_ignores_target_height_witness :
    (1 ≤ img1.width ∧ 2 < (3 : ℚ) / img1.width) ∧
      ((∀ tH tH' : ℕ, upscaleLanczos kDelta img1 3 tH = upscaleLanczos kDelta img1 3 tH') ∧
        (∀ tH : ℕ, (upscaleLanczos kDelta img1 3 tH).1.width = 3 ∧
          (upscaleLanczos kDelta img1 3 tH).1.height =
            (jsRound ((img1.height : ℚ) * ((3 : ℚ) / img1.width))).toNat) ∧
        (upscaleLanczos kDelta img1 3 2).1.height = 3 ∧ (3 : ℕ) ≠ 2) :=
  ⟨⟨by norm_num [img1], by norm_num [img1]⟩,
    upscaleLanczos_ignores_target_height kDelta img1 3 (by norm_num [img1])
      (by norm_num [img1])⟩

/-- Claim C6: `upscaleLanczos` performs a single direct Lanczos pass when
the linear scale factor `targetWidth / srcWidth` is ≤ 2; when it is > 2 it
performs exactly `ceil(log2 scale)` doubling passes (`ceilLog2 scale`,
with `scale ≤ 2^n` and `2^(n-1) < scale`), the `i`-th pass resampling the
previous pass's output (the fold starts from the source and feeds each
result into the next `lanczosResample`) to the size given by
`nextScale = min(2^(i+1), scale)` applied to the original source
dimensions. -/
theorem upscaleLanczos_pass_structure (k : ℚ → ℚ) (src : Raster) (tW tH : ℕ) :
    ((tW : ℚ) / src.width ≤ 2 →
      (upscaleLanczos k src tW tH).1 = lanczosResample k src tW tH) ∧
    (2 < (tW : ℚ) / src.width →
      ∃ passes : List (ℕ × ℕ),
        (upscaleLanczos k src tW tH).1 =
          passes.foldl (fun r p => lanczosResample k r p.1 p.2) src ∧
        passes.length = ceilLog2 ((tW : ℚ) / src.width) ∧
        (tW : ℚ) / src.width ≤ 2 ^ passes.length ∧
        (2 : ℚ) ^ (passes.length - 1) < (tW : ℚ) / src.width ∧
        1 ≤ passes.length ∧
        ∀ i, i < passes.length → passes.getD i (0, 0) =
          ((jsRound ((src.width : ℚ) * min (2 ^ (i + 1)) ((tW : ℚ) / src.width))).toNat,
           (jsRound ((src.height : ℚ) * min (2 ^ (i + 1)) ((tW : ℚ) / src.width))).toNat)) := by
  constructor
  · intro hs
    rw [upscaleLanczos_direct k src tW tH hs]
  · intro hs
    obtain ⟨hle, hlt, hpos⟩ := ceilLog2_pos_spec ((tW : ℚ) / src.width) (by linarith)
    have hlen : (stagedPlan src.width src.height ((tW : ℚ) / src.width)).length =
        ceilLog2 ((tW : ℚ) / src.width) := by
      simp [stagedPlan]
    refine ⟨stagedPlan src.width src.height ((tW : ℚ) / src.width), ?_, hlen, ?_, ?_, ?_, ?_⟩
    · rw [upscaleLanczos_staged k src tW tH hs]
    · rw [hlen]; exact hle
    · rw [hlen]; exact hlt
    · rw [hlen]; exact hpos
    · intro i hi
      rw [hlen] at hi
      exact stagedPlan_getD src.width src.height _ i hi

/-- Claim C6, witness: at the concrete staged input (1×1 source, target
width 3, scale 3 > 2) the staged conclusion holds. -/
theorem upscaleLanczos_pass_structure_witness :
    2 < (3 : ℚ) / img1.width ∧
      ∃ passes : List (ℕ × ℕ),
        (upscaleLanczos kDelta img1 3 3).1 =
          passes.foldl (fun r p => lanczosResample kDelta r p.1 p.2) img1 ∧
        passes.length = ceilLog2 ((3 : ℚ) / img1.width) :=
  ⟨by norm_num [img1], by
    obtain ⟨p, h1, h2, _⟩ :=
      (upscaleLanczos_pass_structure kDelta img1 3 3).2 (by norm_num [img1])
    exact ⟨p, h1, h2⟩⟩

/-- The bicubic step plan is never empty and always ends exactly at the
requested target dimensions. -/
theorem bicubicSteps_spec (srcW srcH tW tH : ℕ) :
    ∃ hne : bicubicSteps srcW srcH tW tH ≠ [],
      (bicubicSteps srcW srcH tW tH).getLast hne = (tW, tH) := by
  unfold bicubicSteps
  by_cases h : (bicubicStepsGo tW tH (tW + tH + 1) srcW srcH).getLast? = some (tW, tH)
  · rw [if_pos h]
    have hne : bicubicStepsGo tW tH (tW + tH + 1) srcW srcH ≠ [] := by
      intro hnil
      rw [hnil] at h
      simp at h
    refine ⟨hne, ?_⟩
    rw [List.getLast?_eq_getLast _ hne] at h
    exact Option.some.inj h
  · rw [if_neg h]
    have hne : bicubicStepsGo tW tH (tW + tH + 1) srcW srcH ++ [(tW, tH)] ≠ [] := by simp
    refine ⟨hne, ?_⟩
    have h2 : (bicubicStepsGo tW tH (tW + tH + 1) srcW srcH ++ [(tW, tH)]).getLast? =
        some (tW, tH) := by
      simp [List.getLast?_concat]
    rw [List.getLast?_eq_getLast _ hne] at h2
    exact Option.some.inj h2

/-- Claim C2, counterexample: `ImageProcessor.upscale` re-derives its
output dimensions from the source aspect ratio.  For the 2×1 source
`img2` and requested dimensions 2×4 it returns a 2×1 canvas (aspect
scale `min(2/2, 4/1) = 1`), not the 2×4 it was given. -/
theorem upscale_refits_aspect :
    (upscale kDelta img2 2 4 .bilinear).1.height = 1 ∧
      (upscale kDelta img2 2 4 .bilinear).1.height ≠ 4 ∧
      (upscale kDelta img2 2 4 .bilinear).1.width = 2 := by
  have hmin : min ((2 : ℚ) / 2) ((4 : ℚ) / 1) = 1 := by norm_num
  have hh : (upscale kDelta img2 2 4 .bilinear).1.height =
      (jsRound ((1 : ℚ) * min ((2 : ℚ) / 2) ((4 : ℚ) / 1))).toNat := rfl
  have hw : (upscale kDelta img2 2 4 .bilinear).1.width =
      (jsRound ((2 : ℚ) * min ((2 : ℚ) / 2) ((4 : ℚ) / 1))).toNat := rfl
  rw [hh, hw, hmin]
  rw [show jsRound ((1 : ℚ) * 1) = 1 by norm_num [jsRound],
    show jsRound ((2 : ℚ) * 1) = 2 by norm_num [jsRound]]
  refine ⟨rfl, by norm_num, rfl⟩

/-- Claim C2 (amended): the aspect-fitting happens in the top-level
`upscale` (see the counterexample); the inner resampling routines
themselves perform no aspect-fitting — `lanczosResample` and the
built-in resize primitive always produce a canvas of exactly the
dimensions they are given, for every source buffer. -/
theorem inner_resample_exact_dims (k : ℚ → ℚ) (src : Raster) (tW tH : ℕ) :
    (lanczosResample k src tW tH).width = tW ∧
      (lanczosResample k src tW tH).height = tH ∧
      (drawImageScaled src tW tH).width = tW ∧
      (drawImageScaled src tW tH).height = tH :=
  ⟨rfl, rfl, rfl, rfl⟩

/-- Claim C1, counterexample: for the 1×1 source `img1`, target 2×1 and
the bilinear algorithm, `upscale` returns a buffer of 4 bytes
(its aspect-fitted 1×1 output), not the `targetWidth*targetHeight*4 = 8`
bytes the claim asserts. -/
theorem upscale_not_requested_size :
    (upscale kDelta img1 2 1 .bilinear).1.data.length = 4 ∧
      (upscale kDelta img1 2 1 .bilinear).1.data.length ≠ 2 * 1 * 4 := by
  have hmin : min ((2 : ℚ) / 1) ((1 : ℚ) / 1) = 1 := by norm_num
  have h1 : (upscale kDelta img1 2 1 .bilinear).1 =
      drawImageScaled img1 (jsRound ((1 : ℚ) * min ((2 : ℚ) / 1) ((1 : ℚ) / 1))).toNat
        (jsRound ((1 : ℚ) * min ((2 : ℚ) / 1) ((1 : ℚ) / 1))).toNat := rfl
  rw [h1, hmin, show jsRound ((1 : ℚ) * 1) = 1 by norm_num [jsRound]]
  rw [show ((1 : ℤ)).toNat = 1 from rfl, drawImageScaled_data_length]
  norm_num

/-- Claim C1 (amended): `upscale` first aspect-fits the request
(`newWidth = round(srcWidth * min(targetWidth/srcWidth,
targetHeight/srcHeight))`, `newHeight` analogous), so the returned buffer
is `outWidth × outHeight × 4` bytes with every byte in [0, 255], where the
output width is `newWidth` for every algorithm, and the output height is
`newHeight` for bilinear, bicubic and direct-lanczos — but in the staged
lanczos branch (`newWidth/srcWidth > 2`) it is re-derived from the width
scale alone (`round(srcHeight * newWidth/srcWidth)`). -/
theorem upscale_output_shape (k : ℚ → ℚ) (img : Raster) (tW tH : ℕ) (alg : Algorithm)
    (hw : 1 ≤ img.width) (nW nH : ℕ)
    (hnW : nW = (jsRound ((img.width : ℚ) *
      min ((tW : ℚ) / img.width) ((tH : ℚ) / img.height))).toNat)
    (hnH : nH = (jsRound ((img.height : ℚ) *
      min ((tW : ℚ) / img.width) ((tH : ℚ) / img.height))).toNat) :
    (upscale k img tW tH alg).1.data.length =
        (upscale k img tW tH alg).1.width * (upscale k img tW tH alg).1.height * 4 ∧
      (∀ v ∈ (upscale k img tW tH alg).1.data, 0 ≤ v ∧ v ≤ 255) ∧
      (upscale k img tW tH alg).1.width = nW ∧
      ((alg = .bilinear ∨ alg = .bicubic ∨ (nW : ℚ) / img.width ≤ 2) →
        (upscale k img tW tH alg).1.height = nH) ∧
      (alg = .lanczos → 2 < (nW : ℚ) / img.width →
        (upscale k img tW tH alg).1.height =
          (jsRound ((img.height : ℚ) * ((nW : ℚ) / img.width))).toNat) := by
  subst hnW hnH
  cases alg with
  | bilinear =>
    have he : (upscale k img tW tH .bilinear).1 =
        drawImageScaled img
          (jsRound ((img.width : ℚ) *
            min ((tW : ℚ) / img.width) ((tH : ℚ) / img.height))).toNat
          (jsRound ((img.height : ℚ) *
            min ((tW : ℚ) / img.width) ((tH : ℚ) / img.height))).toNat := rfl
    rw [he]
    refine ⟨?_, mem_drawImageScaled_bounds _ _ _, rfl, fun _ => rfl, by simp⟩
    rw [drawImageScaled_data_length]
    rfl
  | bicubic =>
    obtain ⟨hne, hlast⟩ := bicubicSteps_spec img.width img.height
      (jsRound ((img.width : ℚ) *
        min ((tW : ℚ) / img.width) ((tH : ℚ) / img.height))).toNat
      (jsRound ((img.height : ℚ) *
        min ((tW : ℚ) / img.width) ((tH : ℚ) / img.height))).toNat
    have he : (upscale k img tW tH .bicubic).1 =
        (bicubicSteps img.width img.height
          (jsRound ((img.width : ℚ) *
            min ((tW : ℚ) / img.width) ((tH : ℚ) / img.height))).toNat
          (jsRound ((img.height : ℚ) *
            min ((tW : ℚ) / img.width) ((tH : ℚ) / img.height))).toNat).foldl
          (fun c s => drawImageScaled c s.1 s.2) img := rfl
    rw [he, foldl_eq_step_getLast _ _ hne, hlast]
    refine ⟨?_, mem_drawImageScaled_bounds _ _ _, rfl, fun _ => rfl, by simp⟩
    rw [drawImageScaled_data_length]
    rfl
  | lanczos =>
    by_cases hsc : ((jsRound ((img.width : ℚ) *
        min ((tW : ℚ) / img.width) ((tH : ℚ) / img.height))).toNat : ℚ) / img.width ≤ 2
    · have he : (upscale k img tW tH .lanczos).1 = (upscaleLanczos k img
          (jsRound ((img.width : ℚ) *
            min ((tW : ℚ) / img.width) ((tH : ℚ) / img.height))).toNat
          (jsRound ((img.height : ℚ) *
            min ((tW : ℚ) / img.width) ((tH : ℚ) / img.height))).toNat).1 := rfl
      rw [he, upscaleLanczos_direct _ _ _ _ hsc]
      refine ⟨?_, mem_lanczosResample_bounds _ _ _ _, rfl, fun _ => rfl,
        fun _ h2 => absurd h2 (not_lt.mpr hsc)⟩
      rw [lanczosResample_data_length]
      rfl
    · push_neg at hsc
      obtain ⟨hne, hlast, hlen⟩ := stagedPlan_getLast img.width img.height _ hsc
      have he : (upscale k img tW tH .lanczos).1 = (upscaleLanczos k img
          (jsRound ((img.width : ℚ) *
            min ((tW : ℚ) / img.width) ((tH : ℚ) / img.height))).toNat
          (jsRound ((img.height : ℚ) *
            min ((tW : ℚ) / img.width) ((tH : ℚ) / img.height))).toNat).1 := rfl
      rw [he, upscaleLanczos_staged _ _ _ _ hsc]
      show ((stagedPlan img.width img.height _).foldl
        (fun r p => lanczosResample k r p.1 p.2) img).data.length = _ ∧ _
      rw [foldl_eq_step_getLast _ _ hne, hlast]
      refine ⟨?_, mem_lanczosResample_bounds _ _ _ _, jsRound_width_cancel _ _ hw,
        ?_, fun _ _ => rfl⟩
      · rw [lanczosResample_data_length]
        rfl
      · intro hor
        rcases hor with h | h | h
        · exact absurd h (by simp)
        · exact absurd h (by simp)
        · exact absurd h (not_le.mpr hsc)

/-- Claim C1, witness: for the 1×1 source, the bilinear algorithm and
target 2×2, the hypotheses of the amended theorem hold concretely. -/
theorem upscale_output_shape_witness :
    (1 ≤ img1.width ∧
        (2 : ℕ) = (jsRound ((img1.width : ℚ) *
          min (((2 : ℕ) : ℚ) / img1.width) (((2 : ℕ) : ℚ) / img1.height))).toNat) ∧
      ((upscale kDelta img1 2 2 .bilinear).1.data.length =
          (upscale kDelta img1 2 2 .bilinear).1.width *
            (upscale kDelta img1 2 2 .bilinear).1.height * 4 ∧
        (upscale kDelta img1 2 2 .bilinear).1.width = 2) := by
  have h1 : (1 : ℕ) ≤ img1.width := by norm_num [img1]
  have h2 : (2 : ℕ) = (jsRound ((img1.width : ℚ) *
      min (((2 : ℕ) : ℚ) / img1.width) (((2 : ℕ) : ℚ) / img1.height))).toNat := by
    rw [show ((img1.width : ℚ) *
        min (((2 : ℕ) : ℚ) / img1.width) (((2 : ℕ) : ℚ) / img1.height)) = ((2 : ℕ) : ℚ) by
      norm_num [img1], jsRound_natCast]
    simp
  have h3 : (2 : ℕ) = (jsRound ((img1.height : ℚ) *
      min (((2 : ℕ) : ℚ) / img1.width) (((2 : ℕ) : ℚ) / img1.height))).toNat := by
    rw [show ((img1.height : ℚ) *
        min (((2 : ℕ) : ℚ) / img1.width) (((2 : ℕ) : ℚ) / img1.height)) = ((2 : ℕ) : ℚ) by
      norm_num [img1], jsRound_natCast]
    simp
  have h := upscale_output_shape kDelta img1 2 2 .bilinear h1 2 2 h2 h3
  exact ⟨⟨h1, h2⟩, h.1, h.2.2.1⟩

/-- Claim C3 (amended): the per-channel division of `lanczosResample` is
performed unconditionally — there is no zero-divisor guard in the code.
At a pixel whose weight sum is zero, each channel is the clamped IEEE
division artifact (0 when the channel accumulator is also zero), entirely
independent of the source pixel values, and in particular not a direct
nearest-sample copy whenever the nearest source sample is nonzero.  (For
the source's sine-based kernel a zero weight sum requires exact
floating-point cancellation of the window sums; the structural point is
that no guard exists for it.) -/
theorem lanczos_zero_weight_artifact (k : ℚ → ℚ) (src : Raster) (tW tH x y : ℕ)
    (h0 : weightSum k src tW tH x y = 0)
    (hc : ∀ c, c < 4 → chanSum k src tW tH x y c = 0) :
    lanczosPixel k src tW tH x y = [0, 0, 0, 0] ∧
      (nearestSample src tW tH x y ≠ [0, 0, 0, 0] →
        lanczosPixel k src tW tH x y ≠ nearestSample src tW tH x y) := by
  have hpix : lanczosPixel k src tW tH x y = [0, 0, 0, 0] := by
    simp only [lanczosPixel, List.map_cons, List.map_nil]
    rw [hc 0 (by norm_num), hc 1 (by norm_num), hc 2 (by norm_num), hc 3 (by norm_num), h0]
    simp [storeClamped]
  refine ⟨hpix, fun hne heq => hne ?_⟩
  rw [← heq, hpix]

end ImageProcessor

namespace GridSplitter

/-- Claim C4, counterexample: `splitIntoTiles` performs no input
validation.  With `overlapPx = -5 < 0` the spec demands an InvalidInput
failure producing no tiles, but the function succeeds and returns one
tile. -/
theorem splitIntoTiles_accepts_negative_overlap :
    cfgNeg.overlapPx < 0 ∧ (splitIntoTiles 200 100 cfgNeg).length = 1 ∧
      splitIntoTiles 200 100 cfgNeg ≠ [] := by
  refine ⟨by norm_num [cfgNeg], ?_, ?_⟩ <;>
    simp [splitIntoTiles, cfgNeg, List.range_succ]

/-- Claim C4 (amended): `splitIntoTiles` never fails and validates
nothing: for every grid config (including `cols < 1`, `rows < 1` or
negative overlap) it returns exactly `rows * cols` tiles — an empty list
when a loop bound is zero or negative, one tile per grid cell otherwise —
with no error path at all. -/
theorem splitIntoTiles_never_fails (sw sh : ℕ) (cfg : GridConfig) :
    (splitIntoTiles sw sh cfg).length = cfg.rows.toNat * cfg.cols.toNat := by
  rw [splitIntoTiles, length_flatMap_const _ _ cfg.cols.toNat (by simp)]
  simp

/-- Claim C5: every tile's source rectangle follows the per-edge overlap
expansion formulas of the code (`srcX = col*tileContentWidth` minus
`overlapSourceX` exactly when `col > 0`; width gains `overlapSourceX` for
the left edge when `col > 0` and for the right edge when
`col < cols - 1`; analogously vertically), after which `srcX, srcY` are
clamped to `≥ 0` and `srcWidth, srcHeight` are clamped so the rectangle
never exceeds the source bounds. -/
theorem tile_source_rect (sw sh : ℕ) (cfg : GridConfig) (t : Tile)
    (ht : t ∈ splitIntoTiles sw sh cfg) :
    t.srcX = max 0 ((t.col : ℚ) * ((sw : ℚ) / cfg.cols) -
        (if 0 < t.col then cfg.overlapPx * ((sw : ℚ) / cfg.cols) / cfg.a4WidthPx else 0)) ∧
      t.srcY = max 0 ((t.row : ℚ) * ((sh : ℚ) / cfg.rows) -
        (if 0 < t.row then cfg.overlapPx * ((sh : ℚ) / cfg.rows) / cfg.a4HeightPx else 0)) ∧
      t.srcWidth = min ((sw : ℚ) / cfg.cols +
          (if 0 < t.col then cfg.overlapPx * ((sw : ℚ) / cfg.cols) / cfg.a4WidthPx else 0) +
          (if (t.col : ℤ) < cfg.cols - 1 then
            cfg.overlapPx * ((sw : ℚ) / cfg.cols) / cfg.a4WidthPx else 0))
        ((sw : ℚ) - t.srcX) ∧
      t.srcHeight = min ((sh : ℚ) / cfg.rows +
          (if 0 < t.row then cfg.overlapPx * ((sh : ℚ) / cfg.rows) / cfg.a4HeightPx else 0) +
          (if (t.row : ℤ) < cfg.rows - 1 then
            cfg.overlapPx * ((sh : ℚ) / cfg.rows) / cfg.a4HeightPx else 0))
        ((sh : ℚ) - t.srcY) ∧
      0 ≤ t.srcX ∧ 0 ≤ t.srcY ∧
      t.srcX + t.srcWidth ≤ (sw : ℚ) ∧ t.srcY + t.srcHeight ≤ (sh : ℚ) := by
  simp only [splitIntoTiles, List.mem_flatMap, List.mem_map, List.mem_range] at ht
  obtain ⟨row, hrow, col, hcol, rfl⟩ := ht
  refine ⟨rfl, rfl, rfl, rfl, le_max_left _ _, le_max_left _ _, ?_, ?_⟩
  · have h := min_le_right ((sw : ℚ) / cfg.cols +
      (if 0 < col then cfg.overlapPx * ((sw : ℚ) / cfg.cols) / cfg.a4WidthPx else 0) +
      (if (col : ℤ) < cfg.cols - 1 then
        cfg.overlapPx * ((sw : ℚ) / cfg.cols) / cfg.a4WidthPx else 0))
      ((sw : ℚ) - (mkTile sw sh cfg row col).srcX)
    have h2 : (mkTile sw sh cfg row col).srcWidth ≤
        (sw : ℚ) - (mkTile sw sh cfg row col).srcX := h
    linarith
  · have h := min_le_right ((sh : ℚ) / cfg.rows +
      (if 0 < row then cfg.overlapPx * ((sh : ℚ) / cfg.rows) / cfg.a4HeightPx else 0) +
      (if (row : ℤ) < cfg.rows - 1 then
        cfg.overlapPx * ((sh : ℚ) / cfg.rows) / cfg.a4HeightPx else 0))
      ((sh : ℚ) - (mkTile sw sh cfg row col).srcY)
    have h2 : (mkTile sw sh cfg row col).srcHeight ≤
        (sh : ℚ) - (mkTile sw sh cfg row col).srcY := h
    linarith

/-- Claim C5, witness at a concrete grid. -/
theorem tile_source_rect_witness :
    mkTile 100 100 cfgPos 1 0 ∈ splitIntoTiles 100 100 cfgPos ∧
      0 ≤ (mkTile 100 100 cfgPos 1 0).srcX ∧
      (mkTile 100 100 cfgPos 1 0).srcX + (mkTile 100 100 cfgPos 1 0).srcWidth ≤ (100 : ℚ) := by
  have hmem : mkTile 100 100 cfgPos 1 0 ∈ splitIntoTiles 100 100 cfgPos := by
    simp only [splitIntoTiles, List.mem_flatMap, List.mem_map, List.mem_range]
    exact ⟨1, by norm_num [cfgPos], 0, by norm_num [cfgPos], rfl⟩
  have h := tile_source_rect 100 100 cfgPos (mkTile 100 100 cfgPos 1 0) hmem
  exact ⟨hmem, h.2.2.2.2.1, h.2.2.2.2.2.2.1⟩

/-- Claim C7, counterexample: with zero overlap the tile of row 1 has
`hasTopOverlap = true` but its top edge equals `row * tileContentHeight`
exactly — it is not strictly less, as the claim asserts for every tile
outside row 0. -/
theorem tile_overlap_edge_zero_overlap :
    mkTile 100 100 cfg0 1 0 ∈ splitIntoTiles 100 100 cfg0 ∧
      (mkTile 100 100 cfg0 1 0).row = 1 ∧
      (mkTile 100 100 cfg0 1 0).hasTopOverlap = true ∧
      ¬ ((mkTile 100 100 cfg0 1 0).srcY <
          ((mkTile 100 100 cfg0 1 0).row : ℚ) * ((100 : ℚ) / cfg0.rows)) := by
  refine ⟨?_, rfl, by norm_num [mkTile, cfg0], ?_⟩
  · simp only [splitIntoTiles, List.mem_flatMap, List.mem_map, List.mem_range]
    exact ⟨1, by norm_num [cfg0], 0, by norm_num [cfg0], rfl⟩
  · norm_num [mkTile, cfg0]

/-- Claim C7 (amended): the overlap-edge booleans always record exactly
which edges are interior (`hasTopOverlap` iff `row ≠ 0`, and analogously
for left, right and bottom); a tile in row 0 has top edge exactly 0; and
*provided the computed source-space overlap is positive* (positive
`overlapPx`, source height and page height, as in every nondegenerate
grid), a tile of row ≠ 0 has its top edge strictly below
`row * tileContentHeight`. -/
theorem tile_overlap_edges (sw sh : ℕ) (cfg : GridConfig) (t : Tile)
    (ht : t ∈ splitIntoTiles sw sh cfg)
    (hrows : 1 ≤ cfg.rows) (hsh : 0 < sh)
    (hov : 0 < cfg.overlapPx) (ha4 : 0 < cfg.a4HeightPx) :
    (t.hasTopOverlap = true ↔ t.row ≠ 0) ∧
      (t.hasLeftOverlap = true ↔ t.col ≠ 0) ∧
      (t.hasRightOverlap = true ↔ (t.col : ℤ) < cfg.cols - 1) ∧
      (t.hasBottomOverlap = true ↔ (t.row : ℤ) < cfg.rows - 1) ∧
      (t.row = 0 → t.srcY = 0) ∧
      (t.row ≠ 0 → t.srcY < (t.row : ℚ) * ((sh : ℚ) / cfg.rows)) := by
  simp only [splitIntoTiles, List.mem_flatMap, List.mem_map, List.mem_range] at ht
  obtain ⟨row, hrow, col, hcol, rfl⟩ := ht
  have hrowsQ : (0 : ℚ) < (cfg.rows : ℚ) := by exact_mod_cast hrows
  have htch : (0 : ℚ) < (sh : ℚ) / cfg.rows := by
    apply div_pos _ hrowsQ
    exact_mod_cast hsh
  have hovY : (0 : ℚ) < cfg.overlapPx * ((sh : ℚ) / cfg.rows) / cfg.a4HeightPx :=
    div_pos (mul_pos hov htch) ha4
  refine ⟨by simp [mkTile, Nat.pos_iff_ne_zero], by simp [mkTile, Nat.pos_iff_ne_zero],
    by simp [mkTile], by simp [mkTile], ?_, ?_⟩
  · intro h
    have hr : row = 0 := h
    subst hr
    norm_num [mkTile]
  · intro h
    have hrowpos : 0 < row := Nat.pos_of_ne_zero (by simpa [mkTile] using h)
    have hrowQ : (0 : ℚ) < (row : ℚ) := by exact_mod_cast hrowpos
    show max 0 ((row : ℚ) * ((sh : ℚ) / cfg.rows) -
        (if 0 < row then cfg.overlapPx * ((sh : ℚ) / cfg.rows) / cfg.a4HeightPx else 0)) <
      (row : ℚ) * ((sh : ℚ) / cfg.rows)
    rw [if_pos hrowpos, max_lt_iff]
    constructor
    · exact mul_pos hrowQ htch
    · linarith

/-- Claim C7, witness at a concrete grid with positive overlap. -/
theorem tile_overlap_edges_witness :
    mkTile 100 100 cfgPos 1 1 ∈ splitIntoTiles 100 100 cfgPos ∧
      ((mkTile 100 100 cfgPos 1 1).hasTopOverlap = true ↔
        (mkTile 100 100 cfgPos 1 1).row ≠ 0) ∧
      ((mkTile 100 100 cfgPos 1 1).row ≠ 0 →
        (mkTile 100 100 cfgPos 1 1).srcY <
          ((mkTile 100 100 cfgPos 1 1).row : ℚ) * ((100 : ℚ) / cfgPos.rows)) := by
  have hmem : mkTile 100 100 cfgPos 1 1 ∈ splitIntoTiles 100 100 cfgPos := by
    simp only [splitIntoTiles, List.mem_flatMap, List.mem_map, List.mem_range]
    exact ⟨1, by norm_num [cfgPos], 1, by norm_num [cfgPos], rfl⟩
  have h := tile_overlap_edges 100 100 cfgPos (mkTile 100 100 cfgPos 1 1) hmem
    (by norm_num [cfgPos]) (by norm_num) (by norm_num [cfgPos]) (by norm_num [cfgPos])
  exact ⟨hmem, h.1, h.2.2.2.2.2⟩

end GridSplitter

end Ratools

namespace Ratools

namespace ImageProcessor

theorem window_two_one : window 2 1 0 = [0, 1] := by
  unfold window winLo winHi srcCoord intRange
  norm_num
  decide

theorem window_one_one : window 1 1 0 = [0] := by
  unfold window winLo winHi srcCoord intRange
  norm_num
  decide

/-- For the kernel `kNeg` the weight sum of the single destination pixel of
a 2×1 → 1×1 resample vanishes. -/
theorem weightSum_kNeg_zero : weightSum kNeg img2 1 1 0 0 = 0 := by
  unfold weightSum
  rw [show img2.width = 2 from rfl, show img2.height = 1 from rfl,
    window_two_one, window_one_one]
  norm_num [kNeg, srcCoord]

/-- With the uniform grey source `img2` the channel accumulators of that
pixel vanish as well. -/
theorem chanSum_kNeg_zero : ∀ c, c < 4 → chanSum kNeg img2 1 1 0 0 c = 0 := by
  intro c hcc
  unfold chanSum
  rw [show img2.width = 2 from rfl, show img2.height = 1 from rfl,
    window_two_one, window_one_one]
  have h00 : sample img2 0 0 0 = 200 := by decide
  have h01 : sample img2 0 0 1 = 200 := by decide
  have h02 : sample img2 0 0 2 = 200 := by decide
  have h03 : sample img2 0 0 3 = 255 := by decide
  have h10 : sample img2 1 0 0 = 200 := by decide
  have h11 : sample img2 1 0 1 = 200 := by decide
  have h12 : sample img2 1 0 2 = 200 := by decide
  have h13 : sample img2 1 0 3 = 255 := by decide
  interval_cases c <;>
    norm_num [kNeg, srcCoord, h00, h01, h02, h03, h10, h11, h12, h13]

/-- Claim C3, counterexample: the unguarded division at a zero weight sum
does not produce a nearest-sample copy.  With the kernel `kNeg`
(which, like any kernel, the unguarded code combines by straight summation)
the single output pixel of the 2×1 grey source resampled to 1×1 has weight
sum 0 and comes out as transparent black `[0,0,0,0]`, while the direct
nearest-sample copy of the source is `[200,200,200,255]`. -/
theorem lanczos_zero_weight_not_nearest :
    weightSum kNeg img2 1 1 0 0 = 0 ∧
      lanczosPixel kNeg img2 1 1 0 0 = [0, 0, 0, 0] ∧
      nearestSample img2 1 1 0 0 = [200, 200, 200, 255] ∧
      lanczosPixel kNeg img2 1 1 0 0 ≠ nearestSample img2 1 1 0 0 := by
  have hpix : lanczosPixel kNeg img2 1 1 0 0 = [0, 0, 0, 0] := by
    simp only [lanczosPixel, List.map_cons, List.map_nil]
    rw [chanSum_kNeg_zero 0 (by norm_num), chanSum_kNeg_zero 1 (by norm_num),
      chanSum_kNeg_zero 2 (by norm_num), chanSum_kNeg_zero 3 (by norm_num),
      weightSum_kNeg_zero]
    simp [storeClamped]
  have hnear : nearestSample img2 1 1 0 0 = [200, 200, 200, 255] := by
    unfold nearestSample srcCoord jsRound sample
    norm_num [img2]
  refine ⟨weightSum_kNeg_zero, hpix, hnear, ?_⟩
  rw [hpix, hnear]
  decide

/-- Claim C3, witness for the amended theorem at the concrete zero-sum
input. -/
theorem lanczos_zero_weight_artifact_witness :
    (weightSum kNeg img2 1 1 0 0 = 0 ∧
        ∀ c, c < 4 → chanSum kNeg img2 1 1 0 0 c = 0) ∧
      lanczosPixel kNeg img2 1 1 0 0 = [0, 0, 0, 0] :=
  ⟨⟨weightSum_kNeg_zero, chanSum_kNeg_zero⟩,
    (lanczos_zero_weight_artifact kNeg img2 1 1 0 0 weightSum_kNeg_zero
      chanSum_kNeg_zero).1⟩

end ImageProcessor

end Ratools

namespace Ratools

namespace ImageProcessor

/-- The last report of a nonempty `range`-map. -/
theorem getLast?_map_range (f : ℕ → ℚ) (m : ℕ) (hm : 0 < m) :
    ((List.range m).map f).getLast? = some (f (m - 1)) := by
  conv_lhs => rw [show m = (m - 1) + 1 by omega, List.range_succ, List.map_append]
  simp [List.getLast?_concat]

/-- A `range`-map of a locally monotone function is a ≤-chain. -/
theorem chain_le_map_range (f : ℕ → ℚ) (n : ℕ) (hf : ∀ i, i + 1 < n → f i ≤ f (i + 1)) :
    List.Chain' (· ≤ ·) ((List.range n).map f) := by
  induction n with
  | zero => simp
  | succ m ih =>
    rw [List.range_succ, List.map_append]
    rcases Nat.eq_zero_or_pos m with rfl | hm
    · simp
    · apply List.chain'_append.mpr
      refine ⟨ih fun i hi => hf i (by omega), by simp, ?_⟩
      intro a ha b hb
      rw [getLast?_map_range f m hm] at ha
      have ha2 : a = f (m - 1) := (by simpa using ha : f (m - 1) = a).symm
      have hb2 : b = f m := (by simpa using hb : f m = b).symm
      rw [ha2, hb2]
      have := hf (m - 1) (by omega)
      rwa [show m - 1 + 1 = m by omega] at this

/-- Assembling the full `upscale` progress trace `0, 10, …, 100` from a
monotone strategy trace with values in [10, 100]. -/
theorem full_trace_ok (l : List ℚ)
    (hchain : List.Chain' (· ≤ ·) l)
    (hbounds : ∀ v ∈ l, 10 ≤ v ∧ v ≤ 100) :
    List.Chain' (· ≤ ·) (0 :: 10 :: (l ++ [100])) ∧
      (∀ v ∈ 0 :: 10 :: (l ++ [100]), 0 ≤ v ∧ v ≤ 100) ∧
      (0 :: 10 :: (l ++ [100])).getLast? = some 100 := by
  refine ⟨?_, ?_, ?_⟩
  · rw [List.chain'_cons]
    refine ⟨by norm_num, ?_⟩
    rw [List.chain'_cons']
    constructor
    · intro b hb
      cases l with
      | nil =>
        have hb2 : b = (100 : ℚ) := (by simpa using hb : (100 : ℚ) = b).symm
        rw [hb2]
        norm_num
      | cons a t =>
        have hb2 : b = a := (by simpa using hb : a = b).symm
        rw [hb2]
        exact (hbounds a (by simp)).1
    · apply List.chain'_append.mpr
      refine ⟨hchain, by simp, ?_⟩
      intro x hx y hy
      have hy2 : y = (100 : ℚ) := (by simpa using hy : (100 : ℚ) = y).symm
      cases hl : l.getLast? with
      | none =>
        rw [hl] at hx
        cases hx
      | some a =>
        rw [hl] at hx
        have hx2 : x = a := (by simpa using hx : a = x).symm
        have hne : l ≠ [] := by
          intro hnil
          rw [hnil] at hl
          simp at hl
        have hmem : a ∈ l := by
          have h2 := List.getLast?_eq_getLast l hne
          rw [h2] at hl
          rw [← Option.some.inj hl]
          exact List.getLast_mem hne
        rw [hx2, hy2]
        exact (hbounds a hmem).2
  · intro v hv
    simp only [List.mem_cons, List.mem_append] at hv
    rcases hv with rfl | rfl | hv | hv
    · norm_num
    · norm_num
    · have := hbounds v hv
      constructor <;> linarith [this.1, this.2]
    · have : v = (100 : ℚ) := by simpa using hv
      rw [this]
      norm_num
  · rw [show (0 : ℚ) :: 10 :: (l ++ [100]) = ((0 : ℚ) :: 10 :: l) ++ [100] by simp,
      List.getLast?_concat]

/-- The per-pass percentages `10 + 80*(i+1)/m` for `i < n ≤ m` form a
monotone trace within [10, 100]. -/
theorem ratio_trace_ok (n m : ℕ) (hm : 1 ≤ m) (hle : n ≤ m) :
    List.Chain' (· ≤ ·) ((List.range n).map fun i : ℕ => 10 + 80 * ((i : ℚ) + 1) / m) ∧
      ∀ v ∈ (List.range n).map fun i : ℕ => 10 + 80 * ((i : ℚ) + 1) / m,
        10 ≤ v ∧ v ≤ 100 := by
  have hm0 : (0 : ℚ) < m := by exact_mod_cast hm
  constructor
  · refine chain_le_map_range _ n fun i _ => ?_
    have h1 : 80 * ((i : ℚ) + 1) ≤ 80 * (((i + 1 : ℕ) : ℚ) + 1) := by push_cast; linarith
    have h2 := div_le_div_of_nonneg_right h1 hm0.le
    linarith [h2]
  · intro v hv
    simp only [List.mem_map, List.mem_range] at hv
    obtain ⟨i, hi, rfl⟩ := hv
    have hpos : (0 : ℚ) ≤ 80 * ((i : ℚ) + 1) / m := by positivity
    have hle2 : ((i : ℚ) + 1) ≤ (m : ℚ) := by
      have : (i : ℚ) + 1 ≤ (n : ℚ) := by exact_mod_cast hi
      have hnm : (n : ℚ) ≤ (m : ℚ) := by exact_mod_cast hle
      linarith
    have hub : 80 * ((i : ℚ) + 1) / m ≤ 80 := by
      rw [div_le_iff₀ hm0]
      nlinarith
    constructor <;> linarith

/-- The chunked progress reports of the direct Lanczos pass are monotone
and within [10, 90] ⊆ [10, 100]. -/
theorem chunk_trace_ok (tH : ℕ) :
    List.Chain' (· ≤ ·) (lanczosTrace tH) ∧
      ∀ v ∈ lanczosTrace tH, 10 ≤ v ∧ v ≤ 100 := by
  rcases Nat.eq_zero_or_pos tH with rfl | htH
  · constructor
    · simp [lanczosTrace, numChunks, chunkSize]
    · intro v hv
      simp [lanczosTrace, numChunks, chunkSize] at hv
  · have htH0 : (0 : ℚ) < tH := by exact_mod_cast htH
    constructor
    · refine chain_le_map_range _ _ fun i _ => ?_
      have hmin : (min ((i + 1) * chunkSize tH) tH : ℕ) ≤
          (min ((i + 1 + 1) * chunkSize tH) tH : ℕ) := by
        apply min_le_min _ le_rfl
        exact Nat.mul_le_mul_right _ (by omega)
      have hminQ : ((min ((i + 1) * chunkSize tH) tH : ℕ) : ℚ) ≤
          ((min ((i + 1 + 1) * chunkSize tH) tH : ℕ) : ℚ) := by exact_mod_cast hmin
      have h1 : 80 * ((min ((i + 1) * chunkSize tH) tH : ℕ) : ℚ) ≤
          80 * ((min ((i + 1 + 1) * chunkSize tH) tH : ℕ) : ℚ) := by linarith
      have h2 := div_le_div_of_nonneg_right h1 htH0.le
      linarith [h2]
    · intro v hv
      simp only [lanczosTrace, List.mem_map, List.mem_range] at hv
      obtain ⟨i, hi, rfl⟩ := hv
      have hpos : (0 : ℚ) ≤ 80 * ((min ((i + 1) * chunkSize tH) tH : ℕ) : ℚ) / tH := by
        positivity
      have hminle : ((min ((i + 1) * chunkSize tH) tH : ℕ) : ℚ) ≤ (tH : ℚ) := by
        exact_mod_cast min_le_right _ _
      have hub : 80 * ((min ((i + 1) * chunkSize tH) tH : ℕ) : ℚ) / tH ≤ 80 := by
        rw [div_le_iff₀ htH0]
        nlinarith
      constructor <;> linarith

end ImageProcessor

end Ratools

namespace Ratools

namespace ImageProcessor

/-- Claim C9: for every invocation of `upscale` with a progress observer,
the sequence of reported values is non-decreasing, every value lies in
[0, 100], and the final report is exactly 100 — for the bilinear, bicubic,
direct-Lanczos and staged-Lanczos strategies alike. -/
theorem upscale_progress_monotone (k : ℚ → ℚ) (img : Raster) (tW tH : ℕ)
    (alg : Algorithm) :
    List.Chain' (· ≤ ·) (upscale k img tW tH alg).2 ∧
      (∀ v ∈ (upscale k img tW tH alg).2, 0 ≤ v ∧ v ≤ 100) ∧
      (upscale k img tW tH alg).2.getLast? = some 100 := by
  cases alg with
  | bilinear =>
    have he : (upscale k img tW tH .bilinear).2 =
        0 :: 10 :: (([90] : List ℚ) ++ [100]) := rfl
    rw [he]
    refine full_trace_ok [90] (by simp) ?_
    intro v hv
    have hv2 : v = (90 : ℚ) := by simpa using hv
    rw [hv2]
    norm_num
  | bicubic =>
    obtain ⟨hne, _⟩ := bicubicSteps_spec img.width img.height
      (jsRound ((img.width : ℚ) *
        min ((tW : ℚ) / img.width) ((tH : ℚ) / img.height))).toNat
      (jsRound ((img.height : ℚ) *
        min ((tW : ℚ) / img.width) ((tH : ℚ) / img.height))).toNat
    have hlen1 : 1 ≤ (bicubicSteps img.width img.height
        (jsRound ((img.width : ℚ) *
          min ((tW : ℚ) / img.width) ((tH : ℚ) / img.height))).toNat
        (jsRound ((img.height : ℚ) *
          min ((tW : ℚ) / img.width) ((tH : ℚ) / img.height))).toNat).length :=
      List.length_pos.mpr hne
    have he : (upscale k img tW tH .bicubic).2 =
        0 :: 10 :: (((List.range (bicubicSteps img.width img.height
            (jsRound ((img.width : ℚ) *
              min ((tW : ℚ) / img.width) ((tH : ℚ) / img.height))).toNat
            (jsRound ((img.height : ℚ) *
              min ((tW : ℚ) / img.width) ((tH : ℚ) / img.height))).toNat).length).map
          fun i : ℕ => 10 + 80 * ((i : ℚ) + 1) / ((bicubicSteps img.width img.height
            (jsRound ((img.width : ℚ) *
              min ((tW : ℚ) / img.width) ((tH : ℚ) / img.height))).toNat
            (jsRound ((img.height : ℚ) *
              min ((tW : ℚ) / img.width) ((tH : ℚ) / img.height))).toNat).length : ℚ))
          ++ [100]) := rfl
    rw [he]
    obtain ⟨hc, hb⟩ := ratio_trace_ok _ _ hlen1 le_rfl
    exact full_trace_ok _ hc hb
  | lanczos =>
    by_cases hsc : (((jsRound ((img.width : ℚ) *
        min ((tW : ℚ) / img.width) ((tH : ℚ) / img.height))).toNat : ℚ)) / img.width ≤ 2
    · have he : (upscale k img tW tH .lanczos).2 =
          0 :: 10 :: ((upscaleLanczos k img
            (jsRound ((img.width : ℚ) *
              min ((tW : ℚ) / img.width) ((tH : ℚ) / img.height))).toNat
            (jsRound ((img.height : ℚ) *
              min ((tW : ℚ) / img.width) ((tH : ℚ) / img.height))).toNat).2 ++ [100]) := rfl
      rw [he, upscaleLanczos_direct _ _ _ _ hsc]
      obtain ⟨hc, hb⟩ := chunk_trace_ok
        (jsRound ((img.height : ℚ) *
          min ((tW : ℚ) / img.width) ((tH : ℚ) / img.height))).toNat
      exact full_trace_ok _ hc hb
    · push_neg at hsc
      have he : (upscale k img tW tH .lanczos).2 =
          0 :: 10 :: ((upscaleLanczos k img
            (jsRound ((img.width : ℚ) *
              min ((tW : ℚ) / img.width) ((tH : ℚ) / img.height))).toNat
            (jsRound ((img.height : ℚ) *
              min ((tW : ℚ) / img.width) ((tH : ℚ) / img.height))).toNat).2 ++ [100]) := rfl
      rw [he, upscaleLanczos_staged _ _ _ _ hsc]
      have hlen : (stagedPlan img.width img.height
          (((jsRound ((img.width : ℚ) *
            min ((tW : ℚ) / img.width) ((tH : ℚ) / img.height))).toNat : ℚ) /
              img.width)).length =
          ceilLog2 (((jsRound ((img.width : ℚ) *
            min ((tW : ℚ) / img.width) ((tH : ℚ) / img.height))).toNat : ℚ) / img.width) := by
        simp [stagedPlan]
      obtain ⟨_, _, hpos⟩ := ceilLog2_pos_spec _ (by linarith)
      obtain ⟨hc, hb⟩ := ratio_trace_ok _ _ hpos (le_of_eq hlen)
      exact full_trace_ok _ hc hb

end ImageProcessor

end Ratools

namespace Ratools

theorem drop_four_eq (d : List ℤ) (n : ℕ) (h : n + 4 ≤ d.length) :
    (d.drop n).take 4 =
      [d.getD n 0, d.getD (n + 1) 0, d.getD (n + 2) 0, d.getD (n + 3) 0] := by
  have h0 : n < d.length := by omega
  have h1 : n + 1 < d.length := by omega
  have h2 : n + 2 < d.length := by omega
  have h3 : n + 3 < d.length := by omega
  rw [List.drop_eq_getElem_cons h0, List.drop_eq_getElem_cons h1]
  rw [show n + 1 + 1 = n + 2 from rfl, List.drop_eq_getElem_cons h2]
  rw [show n + 2 + 1 = n + 3 from rfl, List.drop_eq_getElem_cons h3]
  rw [List.getD_eq_getElem d 0 h0, List.getD_eq_getElem d 0 h1,
    List.getD_eq_getElem d 0 h2, List.getD_eq_getElem d 0 h3]
  rfl

theorem row_chunks_eq (d : List ℤ) (w off : ℕ) (f : ℕ → List ℤ)
    (hf : ∀ x, x < w → f x = [d.getD (off + 4 * x) 0, d.getD (off + 4 * x + 1) 0,
      d.getD (off + 4 * x + 2) 0, d.getD (off + 4 * x + 3) 0])
    (hlen : off + 4 * w ≤ d.length) :
    (List.range w).flatMap f = (d.drop off).take (4 * w) := by
  induction w with
  | zero => simp
  | succ m ih =>
    rw [List.range_succ, List.flatMap_append]
    rw [ih (fun x hx => hf x (by omega)) (by omega)]
    simp only [List.flatMap_cons, List.flatMap_nil, List.append_nil]
    rw [hf m (by omega)]
    have hd : ((d.drop off).drop (4 * m)).take 4 =
        [d.getD (off + 4 * m) 0, d.getD (off + 4 * m + 1) 0,
          d.getD (off + 4 * m + 2) 0, d.getD (off + 4 * m + 3) 0] := by
      rw [List.drop_drop]
      exact drop_four_eq d (off + 4 * m) (by omega)
    calc (d.drop off).take (4 * m) ++
        [d.getD (off + 4 * m) 0, d.getD (off + 4 * m + 1) 0,
          d.getD (off + 4 * m + 2) 0, d.getD (off + 4 * m + 3) 0]
        = (d.drop off).take (4 * m) ++ ((d.drop off).drop (4 * m)).take 4 := by rw [hd]
      _ = (d.drop off).take (4 * m + 4) := (List.take_add _ _ _).symm
      _ = (d.drop off).take (4 * (m + 1)) := by ring_nf

theorem grid_chunks_eq (d : List ℤ) (w h : ℕ) (px : ℕ → ℕ → List ℤ)
    (hpx : ∀ x y, x < w → y < h → px x y =
      [d.getD ((y * w + x) * 4) 0, d.getD ((y * w + x) * 4 + 1) 0,
        d.getD ((y * w + x) * 4 + 2) 0, d.getD ((y * w + x) * 4 + 3) 0])
    (hlen : d.length = 4 * w * h) :
    ((List.range h).flatMap fun y => (List.range w).flatMap fun x => px x y) = d := by
  have key : ∀ m, m ≤ h →
      ((List.range m).flatMap fun y => (List.range w).flatMap fun x => px x y) =
        d.take (4 * (w * m)) := by
    intro m
    induction m with
    | zero => intro _; simp
    | succ n ihn =>
      intro hm
      rw [List.range_succ, List.flatMap_append]
      rw [ihn (by omega)]
      simp only [List.flatMap_cons, List.flatMap_nil, List.append_nil]
      rw [row_chunks_eq d w (4 * (w * n)) (fun x => px x n) ?hf ?hl]
      case hf =>
        intro x hx
        show px x n = _
        rw [hpx x n hx (by omega)]
        have e0 : (n * w + x) * 4 = 4 * (w * n) + 4 * x := by ring
        rw [e0]
      case hl =>
        have h1 : w * (n + 1) ≤ w * h := Nat.mul_le_mul_left w hm
        calc 4 * (w * n) + 4 * w = 4 * (w * (n + 1)) := by ring
          _ ≤ 4 * (w * h) := Nat.mul_le_mul_left 4 h1
          _ = 4 * w * h := by ring
          _ = d.length := hlen.symm
      calc d.take (4 * (w * n)) ++ (d.drop (4 * (w * n))).take (4 * w)
          = d.take (4 * (w * n) + 4 * w) := (List.take_add _ _ _).symm
        _ = d.take (4 * (w * (n + 1))) := by ring_nf
  have hfin := key h le_rfl
  rw [hfin, show 4 * (w * h) = d.length by rw [hlen]; ring, List.take_length]

end Ratools

namespace Ratools

namespace ImageProcessor

theorem jsRound_intCast (z : ℤ) : jsRound (z : ℚ) = z := by
  unfold jsRound
  rw [Int.floor_int_add]
  norm_num

theorem sample_bounds (src : Raster) (hvalid : ∀ v ∈ src.data, 0 ≤ v ∧ v ≤ 255)
    (sx sy : ℤ) (c : ℕ) : 0 ≤ sample src sx sy c ∧ sample src sx sy c ≤ 255 := by
  unfold sample
  by_cases h : ((sy * src.width + sx) * 4 + c).toNat < src.data.length
  · rw [List.getD_eq_getElem _ _ h]
    exact hvalid _ (List.getElem_mem h)
  · rw [List.getD_eq_default _ _ (by omega)]
    norm_num

theorem clamp_eq_self (v : ℤ) (h0 : 0 ≤ v) (h255 : v ≤ 255) : clamp v 0 255 = v := by
  unfold clamp
  rw [max_eq_left h0, min_eq_left h255]

theorem sample_natCast (src : Raster) (x y c : ℕ) :
    sample src (x : ℤ) (y : ℤ) c = src.data.getD ((y * src.width + x) * 4 + c) 0 := by
  unfold sample
  have harg : (((y : ℤ) * src.width + (x : ℤ)) * 4 + (c : ℤ)).toNat =
      (y * src.width + x) * 4 + c := by
    rw [show ((y : ℤ) * src.width + (x : ℤ)) * 4 + (c : ℤ) =
        (((y * src.width + x) * 4 + c : ℕ) : ℤ) by push_cast; ring]
    exact Int.toNat_natCast _
  rw [harg]

theorem intRange_nodup (lo hi : ℤ) : (intRange lo hi).Nodup := by
  unfold intRange
  apply List.Nodup.map
  · intro a b hab
    dsimp only at hab
    omega
  · exact List.nodup_range _

theorem mem_intRange (lo hi a : ℤ) : a ∈ intRange lo hi ↔ lo ≤ a ∧ a ≤ hi := by
  unfold intRange
  simp only [List.mem_map, List.mem_range]
  constructor
  · rintro ⟨i, hi2, rfl⟩
    omega
  · rintro ⟨h1, h2⟩
    exact ⟨(a - lo).toNat, by omega, by omega⟩

/-- A sum over a duplicate-free list whose terms vanish except at one
member. -/
theorem sum_map_single (l : List ℤ) (f : ℤ → ℚ) (a : ℤ)
    (hmem : a ∈ l) (hnodup : l.Nodup) (hzero : ∀ b ∈ l, b ≠ a → f b = 0) :
    (l.map f).sum = f a := by
  induction l with
  | nil => cases hmem
  | cons hd tl ih =>
    rw [List.map_cons, List.sum_cons]
    rcases List.mem_cons.mp hmem with rfl | hmem2
    · have htl : (tl.map f).sum = 0 := by
        apply List.sum_eq_zero
        intro v hv
        simp only [List.mem_map] at hv
        obtain ⟨b, hb, rfl⟩ := hv
        apply hzero b (by simp [hb])
        intro hba
        rw [hba] at hb
        exact (List.nodup_cons.mp hnodup).1 hb
      rw [htl, add_zero]
    · have hhd : f hd = 0 := by
        apply hzero hd (by simp)
        intro hha
        exact (List.nodup_cons.mp hnodup).1 (hha ▸ hmem2)
      rw [hhd, zero_add]
      exact ih hmem2 (List.nodup_cons.mp hnodup).2 fun b hb hba =>
        hzero b (by simp [hb]) hba

theorem srcCoord_self (dim pos : ℕ) (hdim : 0 < dim) :
    srcCoord dim dim pos = (pos : ℚ) := by
  unfold srcCoord
  rw [div_self (by exact_mod_cast hdim.ne' : ((dim : ℕ) : ℚ) ≠ 0), mul_one]

theorem window_self_mem (dim pos : ℕ) (hpos : pos < dim) :
    ((pos : ℕ) : ℤ) ∈ window dim dim pos := by
  unfold window winLo winHi
  rw [srcCoord_self dim pos (by omega), Int.floor_natCast, Int.ceil_natCast,
    mem_intRange]
  omega

end ImageProcessor

end Ratools

namespace Ratools

namespace ImageProcessor

/-- At identical source and destination size, the centre-aligned built-in
resize maps every destination pixel to exactly its own source pixel. -/
theorem bilinearPixel_identity (src : Raster) (x y : ℕ) (hx : x < src.width)
    (hy : y < src.height) (hvalid : ∀ v ∈ src.data, 0 ≤ v ∧ v ≤ 255) :
    bilinearPixel src src.width src.height x y =
      [src.data.getD ((y * src.width + x) * 4) 0,
       src.data.getD ((y * src.width + x) * 4 + 1) 0,
       src.data.getD ((y * src.width + x) * 4 + 2) 0,
       src.data.getD ((y * src.width + x) * 4 + 3) 0] := by
  have hw0 : ((src.width : ℕ) : ℚ) ≠ 0 := by
    have h : 0 < src.width := by omega
    exact_mod_cast h.ne'
  have hh0 : ((src.height : ℕ) : ℚ) ≠ 0 := by
    have h : 0 < src.height := by omega
    exact_mod_cast h.ne'
  have hsx : ((x : ℚ) + 1/2) * ((src.width : ℚ) / (src.width : ℚ)) - 1/2 = (x : ℚ) := by
    rw [div_self hw0]
    ring
  have hsy : ((y : ℚ) + 1/2) * ((src.height : ℚ) / (src.height : ℚ)) - 1/2 = (y : ℚ) := by
    rw [div_self hh0]
    ring
  have hcx : min (max ((x : ℕ) : ℤ) 0) ((src.width : ℤ) - 1) = ((x : ℕ) : ℤ) := by omega
  have hcy : min (max ((y : ℕ) : ℤ) 0) ((src.height : ℤ) - 1) = ((y : ℕ) : ℤ) := by omega
  have hch : ∀ c : ℕ, clamp (jsRound ((sample src (x : ℤ) (y : ℤ) c : ℤ) : ℚ)) 0 255 =
      src.data.getD ((y * src.width + x) * 4 + c) 0 := by
    intro c
    rw [jsRound_intCast,
      clamp_eq_self _ (sample_bounds src hvalid _ _ c).1 (sample_bounds src hvalid _ _ c).2,
      sample_natCast]
  simp only [bilinearPixel, hsx, hsy, Int.floor_natCast, Int.cast_natCast, sub_self,
    List.map_cons, List.map_nil]
  rw [hcx, hcy]
  simp only [zero_mul, mul_zero, sub_zero, one_mul, add_zero, zero_add, mul_one]
  rw [hch 0, hch 1, hch 2, hch 3]
  simp

theorem drawImageScaled_identity (src : Raster)
    (hvalid : ∀ v ∈ src.data, 0 ≤ v ∧ v ≤ 255)
    (hlen : src.data.length = 4 * src.width * src.height) :
    drawImageScaled src src.width src.height = src := by
  obtain ⟨w, h, d⟩ := src
  show Raster.mk w h _ = Raster.mk w h d
  congr 1
  exact grid_chunks_eq d w h _
    (fun x y hx hy => bilinearPixel_identity ⟨w, h, d⟩ x y hx hy hvalid) hlen

theorem weightSum_identity (k : ℚ → ℚ) (src : Raster) (hk : LanczosKernelFacts k)
    (x y : ℕ) (hx : x < src.width) (hy : y < src.height) :
    weightSum k src src.width src.height x y = 1 := by
  obtain ⟨hk0, hki⟩ := hk
  have hker : ∀ (p : ℕ) (s : ℤ), ((p : ℕ) : ℤ) ≠ s → k ((p : ℚ) - (s : ℚ)) = 0 := by
    intro p s hps
    rw [show (p : ℚ) - (s : ℚ) = (((p : ℤ) - s : ℤ) : ℚ) by push_cast; ring]
    exact hki _ (by omega)
  have hker0 : ∀ p : ℕ, k ((p : ℚ) - (((p : ℕ) : ℤ) : ℚ)) = 1 := by
    intro p
    rw [show (p : ℚ) - (((p : ℕ) : ℤ) : ℚ) = 0 by push_cast; ring, hk0]
  unfold weightSum
  rw [srcCoord_self src.width x (by omega), srcCoord_self src.height y (by omega)]
  have hinner : ∀ sy : ℤ, ((window src.width src.width x).map
      fun sx : ℤ => k ((x : ℚ) - (sx : ℚ)) * k ((y : ℚ) - (sy : ℚ))).sum =
      k ((y : ℚ) - (sy : ℚ)) := by
    intro sy
    rw [sum_map_single _ _ ((x : ℕ) : ℤ) (window_self_mem src.width x hx)
      (intRange_nodup _ _) fun b hb hba => by rw [hker x b (Ne.symm hba), zero_mul]]
    rw [hker0 x, one_mul]
  rw [List.map_congr_left fun sy _ => hinner sy]
  rw [sum_map_single _ _ ((y : ℕ) : ℤ) (window_self_mem src.height y hy)
    (intRange_nodup _ _) fun b hb hba => hker y b (Ne.symm hba)]
  exact hker0 y

theorem chanSum_identity (k : ℚ → ℚ) (src : Raster) (hk : LanczosKernelFacts k)
    (x y c : ℕ) (hx : x < src.width) (hy : y < src.height) :
    chanSum k src src.width src.height x y c = ((sample src (x : ℤ) (y : ℤ) c : ℤ) : ℚ) := by
  obtain ⟨hk0, hki⟩ := hk
  have hker : ∀ (p : ℕ) (s : ℤ), ((p : ℕ) : ℤ) ≠ s → k ((p : ℚ) - (s : ℚ)) = 0 := by
    intro p s hps
    rw [show (p : ℚ) - (s : ℚ) = (((p : ℤ) - s : ℤ) : ℚ) by push_cast; ring]
    exact hki _ (by omega)
  have hker0 : ∀ p : ℕ, k ((p : ℚ) - (((p : ℕ) : ℤ) : ℚ)) = 1 := by
    intro p
    rw [show (p : ℚ) - (((p : ℕ) : ℤ) : ℚ) = 0 by push_cast; ring, hk0]
  unfold chanSum
  rw [srcCoord_self src.width x (by omega), srcCoord_self src.height y (by omega)]
  have hinner : ∀ sy : ℤ, ((window src.width src.width x).map
      fun sx : ℤ => ((sample src sx sy c : ℤ) : ℚ) *
        (k ((x : ℚ) - (sx : ℚ)) * k ((y : ℚ) - (sy : ℚ)))).sum =
      ((sample src ((x : ℕ) : ℤ) sy c : ℤ) : ℚ) * k ((y : ℚ) - (sy : ℚ)) := by
    intro sy
    rw [sum_map_single _ _ ((x : ℕ) : ℤ) (window_self_mem src.width x hx)
      (intRange_nodup _ _) fun b hb hba => by
        rw [hker x b (Ne.symm hba), zero_mul, mul_zero]]
    rw [hker0 x, one_mul]
  rw [List.map_congr_left fun sy _ => hinner sy]
  rw [sum_map_single _ _ ((y : ℕ) : ℤ) (window_self_mem src.height y hy)
    (intRange_nodup _ _) fun b hb hba => by rw [hker y b (Ne.symm hba), mul_zero]]
  rw [hker0 y, mul_one]

theorem lanczosPixel_identity (k : ℚ → ℚ) (src : Raster) (hk : LanczosKernelFacts k)
    (hvalid : ∀ v ∈ src.data, 0 ≤ v ∧ v ≤ 255) (x y : ℕ)
    (hx : x < src.width) (hy : y < src.height) :
    lanczosPixel k src src.width src.height x y =
      [src.data.getD ((y * src.width + x) * 4) 0,
       src.data.getD ((y * src.width + x) * 4 + 1) 0,
       src.data.getD ((y * src.width + x) * 4 + 2) 0,
       src.data.getD ((y * src.width + x) * 4 + 3) 0] := by
  have hch : ∀ c : ℕ, storeClamped ((sample src (x : ℤ) (y : ℤ) c : ℤ) : ℚ) 1 =
      src.data.getD ((y * src.width + x) * 4 + c) 0 := by
    intro c
    unfold storeClamped
    rw [if_neg one_ne_zero, div_one, jsRound_intCast,
      clamp_eq_self _ (sample_bounds src hvalid _ _ c).1 (sample_bounds src hvalid _ _ c).2,
      sample_natCast]
  unfold lanczosPixel
  simp only [List.map_cons, List.map_nil]
  rw [weightSum_identity k src hk x y hx hy,
    chanSum_identity k src hk x y 0 hx hy, chanSum_identity k src hk x y 1 hx hy,
    chanSum_identity k src hk x y 2 hx hy, chanSum_identity k src hk x y 3 hx hy]
  rw [hch 0, hch 1, hch 2, hch 3]
  simp

theorem lanczosResample_identity (k : ℚ → ℚ) (src : Raster) (hk : LanczosKernelFacts k)
    (hvalid : ∀ v ∈ src.data, 0 ≤ v ∧ v ≤ 255)
    (hlen : src.data.length = 4 * src.width * src.height) :
    lanczosResample k src src.width src.height = src := by
  obtain ⟨w, h, d⟩ := src
  show Raster.mk w h _ = Raster.mk w h d
  congr 1
  exact grid_chunks_eq d w h _
    (fun x y hx hy => lanczosPixel_identity k ⟨w, h, d⟩ hk hvalid x y hx hy) hlen

theorem bicubicSteps_self (w h : ℕ) : bicubicSteps w h w h = [(w, h)] := by
  unfold bicubicSteps
  have hgo : bicubicStepsGo w h (w + h + 1) w h = [] := by
    simp [bicubicStepsGo, lt_irrefl]
  rw [hgo]
  simp

end ImageProcessor

end Ratools

namespace Ratools

namespace ImageProcessor

/-- Claim C8: resampling a loaded image to exactly its own dimensions
returns the source buffer unchanged (hence in particular within ±1 per
channel), for each of the bilinear, bicubic and lanczos algorithms.  The
kernel facts hypothesis records the two properties of the source's
Lanczos-3 kernel used: value 1 at offset 0 and value 0 at nonzero integer
offsets. -/
theorem upscale_identity (k : ℚ → ℚ) (img : Raster) (alg : Algorithm)
    (hk : LanczosKernelFacts k)
    (hvalid : ∀ v ∈ img.data, 0 ≤ v ∧ v ≤ 255)
    (hlen : img.data.length = 4 * img.width * img.height)
    (hw : 1 ≤ img.width) (hh : 1 ≤ img.height) :
    (upscale k img img.width img.height alg).1 = img := by
  have hw0 : ((img.width : ℕ) : ℚ) ≠ 0 := by
    exact_mod_cast (by omega : img.width ≠ 0)
  have hh0 : ((img.height : ℕ) : ℚ) ≠ 0 := by
    exact_mod_cast (by omega : img.height ≠ 0)
  have hmin : min ((img.width : ℚ) / img.width) ((img.height : ℚ) / img.height) = 1 := by
    rw [div_self hw0, div_self hh0, min_self]
  have hargW : (jsRound ((img.width : ℚ) *
      min ((img.width : ℚ) / img.width) ((img.height : ℚ) / img.height))).toNat =
      img.width := by
    rw [hmin, mul_one, jsRound_natCast]
    exact Int.toNat_natCast _
  have hargH : (jsRound ((img.height : ℚ) *
      min ((img.width : ℚ) / img.width) ((img.height : ℚ) / img.height))).toNat =
      img.height := by
    rw [hmin, mul_one, jsRound_natCast]
    exact Int.toNat_natCast _
  cases alg with
  | bilinear =>
    have he : (upscale k img img.width img.height .bilinear).1 =
        drawImageScaled img
          (jsRound ((img.width : ℚ) *
            min ((img.width : ℚ) / img.width) ((img.height : ℚ) / img.height))).toNat
          (jsRound ((img.height : ℚ) *
            min ((img.width : ℚ) / img.width) ((img.height : ℚ) / img.height))).toNat := rfl
    rw [he, hargW, hargH]
    exact drawImageScaled_identity img hvalid hlen
  | bicubic =>
    have he : (upscale k img img.width img.height .bicubic).1 =
        (bicubicSteps img.width img.height
          (jsRound ((img.width : ℚ) *
            min ((img.width : ℚ) / img.width) ((img.height : ℚ) / img.height))).toNat
          (jsRound ((img.height : ℚ) *
            min ((img.width : ℚ) / img.width) ((img.height : ℚ) / img.height))).toNat).foldl
          (fun c s => drawImageScaled c s.1 s.2) img := rfl
    rw [he, hargW, hargH, bicubicSteps_self]
    simp only [List.foldl_cons, List.foldl_nil]
    exact drawImageScaled_identity img hvalid hlen
  | lanczos =>
    have he : (upscale k img img.width img.height .lanczos).1 =
        (upscaleLanczos k img
          (jsRound ((img.width : ℚ) *
            min ((img.width : ℚ) / img.width) ((img.height : ℚ) / img.height))).toNat
          (jsRound ((img.height : ℚ) *
            min ((img.width : ℚ) / img.width) ((img.height : ℚ) / img.height))).toNat).1 := rfl
    rw [he, hargW, hargH]
    have hs : ((img.width : ℕ) : ℚ) / img.width ≤ 2 := by
      rw [div_self hw0]
      norm_num
    rw [upscaleLanczos_direct k img img.width img.height hs]
    exact lanczosResample_identity k img hk hvalid hlen

/-- Claim C8, witness: the hypotheses hold for `kDelta` (which satisfies
the kernel facts) and the concrete 2×1 source, and the identity follows. -/
theorem upscale_identity_witness :
    (LanczosKernelFacts kDelta ∧ (∀ v ∈ img2.data, 0 ≤ v ∧ v ≤ 255) ∧
        img2.data.length = 4 * img2.width * img2.height ∧
        1 ≤ img2.width ∧ 1 ≤ img2.height) ∧
      (upscale kDelta img2 img2.width img2.height .lanczos).1 = img2 := by
  have hk : LanczosKernelFacts kDelta := by
    constructor
    · simp [kDelta]
    · intro n hn
      simp only [kDelta]
      rw [if_neg]
      exact_mod_cast hn
  have hvalid : ∀ v ∈ img2.data, 0 ≤ v ∧ v ≤ 255 := by decide
  have hlen : img2.data.length = 4 * img2.width * img2.height := by decide
  exact ⟨⟨hk, hvalid, hlen, by decide, by decide⟩,
    upscale_identity kDelta img2 .lanczos hk hvalid hlen (by decide) (by decide)⟩

end ImageProcessor

end Ratools
